import Mathlib

/-!
# Verification of the lyric-to-timeline alignment engine

Shallow embedding of the core of the proportional-notation-creator
repository: the lyric tokenizer (`src/lib/lyrics/tokens.ts`), the chunker
(`src/lib/lyrics/chunking.ts`), the pixel-space position solver
(`src/lib/lyrics/layout.ts`), and the cell-space position solver
(`src/lib/lyrics/layoutCells.ts`).  JavaScript numbers are modelled by `ℚ`
(all the arithmetic involved is exact on rationals); the one place where
IEEE-754 semantics matter (division by zero producing NaN) is modelled
separately by an explicit `JsNum` type.
-/

namespace PNC

/-- `src/lib/lyrics/metrics.ts` : `LYRIC_METRICS` constants. -/
def charPx : ℚ := 9
def padPx : ℚ := 20
def gapPx : ℚ := 10
def hyphenPx : ℚ := 14

/-- `src/lib/lyrics/tokens.ts` : `LyricToken` is a tagged union of a word
(with its text and the absolute character index of its first character) and a
hyphen (whose text is always `"-"`, so only the index is stored). -/
inductive LyricToken where
  | word (text : String) (charIndex : Nat)
  | hyphen (charIndex : Nat)
  deriving DecidableEq, Repr

/-- The `charIndex` field common to both variants. -/
def LyricToken.charIndex : LyricToken → Nat
  | .word _ ci => ci
  | .hyphen ci => ci

/-- `t.kind === "word"` check. -/
def LyricToken.isWord : LyricToken → Bool
  | .word _ _ => true
  | .hyphen _ => false

/-- `t.kind === "hyphen"` check. -/
def LyricToken.isHyphen : LyricToken → Bool
  | .word _ _ => false
  | .hyphen _ => true

/-- `src/lib/lyrics/tokens.ts` : `estWidthOfToken`. -/
def estWidthOfToken : LyricToken → ℚ
  | .hyphen _ => hyphenPx
  | .word text _ => text.length * charPx + padPx

/-- `src/lib/types.ts` : `LyricAnchor` (`{id, charIndex, cell}`; `cell` is an
absolute cell index on the same timeline as chords). -/
structure LyricAnchor where
  id : String
  charIndex : Nat
  cell : ℚ
  deriving DecidableEq, Repr

/-- One system time window `{startCell, endCell}` (half-open). -/
structure SysWin where
  startCell : ℚ
  endCell : ℚ
  deriving DecidableEq, Repr

/-- `clamp` helper used by both layout files. -/
def qclamp (n lo hi : ℚ) : ℚ := max lo (min hi n)

/-! ## Tokenizer (`src/lib/lyrics/tokens.ts`, `tokenizeAllLyrics`) -/

/-- The character class matched by the JavaScript regex `/\s/`. -/
def isJsSpace (c : Char) : Bool :=
  c = ' ' || c = '\t' || c = '\n' || c = '\r' || c = '\x0b' || c = '\x0c' ||
  c = '\u00A0' || c = '\u1680' ||
  ('\u2000' ≤ c && c ≤ '\u200A') ||
  c = '\u2028' || c = '\u2029' || c = '\u202F' || c = '\u205F' ||
  c = '\u3000' || c = '\uFEFF'

/-- The inner dash-splitting loop of `tokenizeAllLyrics`: walk the characters
of one whitespace-free word, emitting a `Word` token for every maximal
dash-free nonempty segment (at the segment's absolute start index) and a
`Hyphen` token for every dash (at the dash's absolute index).  `idx` is the
absolute index of the head of `cs`; `acc` holds the current segment's
characters in reverse; `segStart` is the segment's absolute start index. -/
def dashSplitGo : List Char → Nat → List Char → Nat → List LyricToken
  | [], _, acc, segStart =>
      if acc.isEmpty then [] else [.word (String.mk acc.reverse) segStart]
  | c :: rest, idx, acc, segStart =>
      if c = '-' then
        (if acc.isEmpty then [] else [.word (String.mk acc.reverse) segStart])
          ++ .hyphen idx :: dashSplitGo rest (idx + 1) [] (idx + 1)
      else
        dashSplitGo rest (idx + 1) (c :: acc) segStart

/-- Emit the tokens for one whitespace-delimited word starting at absolute
index `absStart`: a single `Word` token when it contains no dash, otherwise
the dash-split sequence. -/
def emitWord (wordChars : List Char) (absStart : Nat) : List LyricToken :=
  if wordChars.contains '-' then dashSplitGo wordChars absStart [] absStart
  else [.word (String.mk wordChars) absStart]

theorem length_dropWhile_le {α : Type} (p : α → Bool) (l : List α) :
    (l.dropWhile p).length ≤ l.length := by
  induction l with
  | nil => simp [List.dropWhile]
  | cons c rest ih =>
      by_cases h : p c
      · simp only [List.dropWhile, h]
        exact Nat.le_succ_of_le ih
      · simp_all [List.dropWhile]

/-- The outer loop of `tokenizeAllLyrics`: skip whitespace, take the maximal
whitespace-free run as a word, emit its tokens, continue after it.  `idx` is
the absolute index of the head of the remaining character list. -/
def tokenizeGo : List Char → Nat → List LyricToken
  | [], _ => []
  | c :: rest, idx =>
      if h : isJsSpace c then tokenizeGo rest (idx + 1)
      else
        let wordChars := (c :: rest).takeWhile (fun ch => !isJsSpace ch)
        let after := (c :: rest).dropWhile (fun ch => !isJsSpace ch)
        emitWord wordChars idx ++ tokenizeGo after (idx + wordChars.length)
  termination_by cs _ => cs.length
  decreasing_by
    · simp only [List.length_cons]; omega
    · simp only [List.dropWhile, h, Bool.not_false]
      exact Nat.lt_succ_of_le (length_dropWhile_le _ rest)

/-- `src/lib/lyrics/tokens.ts` : `tokenizeAllLyrics` — tokenize the whole
lyric string as one continuous stream. -/
def tokenizeAllLyrics (lyrics : String) : List LyricToken :=
  tokenizeGo lyrics.data 0

/-! ## Pixel-space position solver (`src/lib/lyrics/layout.ts`,
`layoutOnlyBetweenAnchors`)

The solver's working state — the `tokens` array next to the mutable `xPos`
array — is modelled as a single list of `(token, x)` pairs. -/

/-- A laid-out token: the pair `{token, x}` returned by the solver. -/
abbrev Laid := LyricToken × ℚ

/-- The default linear flow: a running cursor that starts at `c` and advances
by token width plus the fixed gap. -/
def linearFlow : List LyricToken → ℚ → List Laid
  | [], _ => []
  | t :: rest, c => (t, c) :: linearFlow rest (c + estWidthOfToken t + gapPx)

/-- Overwrite the position at index `i` (the `xPos[i] = v` assignment);
out-of-range writes are impossible in the source (all indices come from
`findIndex` / loop bounds) and are no-ops here. -/
def setX : List Laid → Nat → ℚ → List Laid
  | [], _, _ => []
  | p :: rest, 0, v => (p.1, v) :: rest
  | p :: rest, n + 1, v => p :: setX rest n v

/-- `tokens.findIndex((t) => t.kind === "word" && t.charIndex === a.charIndex)`. -/
def findWordIdx (tokens : List LyricToken) (ci : Nat) : Option Nat :=
  tokens.findIdx? (fun t => t.isWord && t.charIndex == ci)

/-- The comparator `(a, b) => (a.i - b.i) || (a.x - b.x)` as a `≤` test for a
stable sort. -/
def anchorPointLE (p q : Nat × ℚ) : Bool :=
  p.1 < q.1 || (p.1 == q.1 && p.2 ≤ q.2)

/-- Stable insertion of a point into an already sorted point list: `p` goes
in front of the first entry it compares `≤` to, after all entries strictly
smaller or tied-and-earlier. -/
def insertPt (p : Nat × ℚ) : List (Nat × ℚ) → List (Nat × ℚ)
  | [] => [p]
  | q :: rest =>
      if anchorPointLE p q then p :: q :: rest else q :: insertPt p rest

/-- JavaScript's `Array.prototype.sort` is stable, and a stable sort under a
consistent comparator has a unique result, so it is modelled by stable
insertion sort under the `(i, x)` comparator. -/
def sortPts : List (Nat × ℚ) → List (Nat × ℚ)
  | [] => []
  | p :: rest => insertPt p (sortPts rest)

/-- The anchor-point resolution of `layoutOnlyBetweenAnchors`
(`src/lib/lyrics/layout.ts` lines 41–52): each anchor whose `charIndex`
matches a word token of the chunk becomes a pair of that token's local index
and the pixel position obtained from the clamped linear map of its cell;
the list is then sorted by `(i, x)`. -/
def anchorPointOfAnchor (tokens : List LyricToken)
    (systemStartCell systemBeats subdivision systemWidthPx : ℚ)
    (a : LyricAnchor) : Option (Nat × ℚ) :=
  match findWordIdx tokens a.charIndex with
  | none => none
  | some i =>
      let beat := (a.cell - systemStartCell) / subdivision
      let beatClamped := qclamp beat 0 systemBeats
      some (i, beatClamped / systemBeats * systemWidthPx)

def anchorPoints (tokens : List LyricToken) (anchors : List LyricAnchor)
    (systemStartCell systemBeats subdivision systemWidthPx : ℚ) :
    List (Nat × ℚ) :=
  sortPts (anchors.filterMap
    (anchorPointOfAnchor tokens systemStartCell systemBeats subdivision
      systemWidthPx))

/-- Snap every anchored token to its anchor position
(`for (const ap of anchorPoints) xPos[ap.i] = ap.x`). -/
def snapAnchors (l : List Laid) (pts : List (Nat × ℚ)) : List Laid :=
  pts.foldl (fun acc p => setX acc p.1 p.2) l

/-- The inner loop of the even-spread step for one consecutive anchor pair:
indices strictly between `ai` and `bi` get positions linearly interpolated by
index rank. -/
def spreadSegment (l : List Laid) (ai : Nat) (ax : ℚ) (bi : Nat) (bx : ℚ) :
    List Laid :=
  (List.range' (ai + 1) (bi - ai - 1)).foldl
    (fun acc i =>
      setX acc i (ax + (((i : ℚ) - (ai : ℚ)) / ((bi : ℚ) - (ai : ℚ))) * (bx - ax)))
    l

/-- Even-spread between each pair of consecutive anchor points.  (The source
guard `count <= 0` corresponds to the inner range being empty.) -/
def spreadBetweenAnchors (l : List Laid) (pts : List (Nat × ℚ)) : List Laid :=
  (pts.zip pts.tail).foldl
    (fun acc pq => spreadSegment acc pq.1.1 pq.1.2 pq.2.1 pq.2.2) l

/-- The forward non-overlap pass over the tail of the list, given the already
processed previous element: `if (xPos[i] < minX) xPos[i] = minX`. -/
def sweepGo : Laid → List Laid → List Laid
  | _, [] => []
  | prev, cur :: rest =>
      let minX := prev.2 + estWidthOfToken prev.1 + gapPx
      let cur' := if cur.2 < minX then (cur.1, minX) else cur
      cur' :: sweepGo cur' rest

/-- The forward non-overlap pass (`for (let i = 1; ...)`). -/
def sweep : List Laid → List Laid
  | [] => []
  | p :: rest => p :: sweepGo p rest

/-- The hyphen-centering pass on the tail, given the (already emitted)
previous element: a hyphen flanked by words is re-centered at the midpoint
between the previous word's right edge and the next word's left edge. -/
def hyphenCenterGo : Laid → List Laid → List Laid
  | _, [] => []
  | _, [cur] => [cur]
  | prev, cur :: next :: rest =>
      let cur' :=
        if cur.1.isHyphen && prev.1.isWord && next.1.isWord then
          let prevRight := prev.2 + estWidthOfToken prev.1
          let mid := (prevRight + next.2) / 2
          (cur.1, mid - estWidthOfToken cur.1 / 2)
        else cur
      cur' :: hyphenCenterGo cur' (next :: rest)

/-- The hyphen-centering pass (indices `0` and `length - 1` are skipped by
the bounds checks in the source). -/
def hyphenCenter : List Laid → List Laid
  | [] => []
  | p :: rest => p :: hyphenCenterGo p rest

/-- `Math.min(...xPos)` over a nonempty laid-out list (`0` for the empty
list, which the source never reaches). -/
def minLeftOf : List Laid → ℚ
  | [] => 0
  | p :: rest => rest.foldl (fun m q => min m q.2) p.2

/-- `Math.max(...xPos.map((x, i) => x + estWidthOfToken(tokens[i])))`. -/
def maxRightOf : List Laid → ℚ
  | [] => 0
  | p :: rest =>
      rest.foldl (fun m q => max m (q.2 + estWidthOfToken q.1))
        (p.2 + estWidthOfToken p.1)

/-- `src/lib/lyrics/layout.ts` : `layoutOnlyBetweenAnchors` (pixel space).
Anchored branch: snap anchors, even-spread between them, forward non-overlap
pass, hyphen centering, and no global shift.  Unanchored branch: linear flow,
shift to fit when possible, hyphen centering. -/
def layoutOnlyBetweenAnchors (tokens : List LyricToken)
    (anchors : List LyricAnchor)
    (systemStartCell systemBeats subdivision systemWidthPx : ℚ) : List Laid :=
  let xPos := linearFlow tokens 0
  let pts := anchorPoints tokens anchors systemStartCell systemBeats
    subdivision systemWidthPx
  if 1 ≤ pts.length then
    hyphenCenter (sweep (spreadBetweenAnchors (snapAnchors xPos pts) pts))
  else if tokens.isEmpty then []
  else
    let minLeft := minLeftOf xPos
    let maxRight := maxRightOf xPos
    let contentWidth := maxRight - minLeft
    let shift :=
      if systemWidthPx < contentWidth then -minLeft
      else
        let maxShift := systemWidthPx - maxRight
        if maxShift < -minLeft then maxShift else -minLeft
    hyphenCenter (xPos.map (fun p => (p.1, p.2 + shift)))

/-! ## Chunker (`src/lib/lyrics/chunking.ts`) -/

/-- `buildAnchorsBySystem`: for each system window, the anchors whose `cell`
falls inside `[startCell, endCell)`. -/
def buildAnchorsBySystem (anchors : List LyricAnchor)
    (systemsTiming : List SysWin) : List (List LyricAnchor) :=
  systemsTiming.map (fun w =>
    anchors.filter (fun a => w.startCell ≤ a.cell && a.cell < w.endCell))

/-- The `tokenIndexByCharIndex` map of `chunkTokensForwardOnly`: built by a
forward `forEach` over word tokens with overwriting `Map.set`, so a lookup
returns the index of the *last* word token with the given `charIndex`. -/
def lastWordIdx (tokens : List LyricToken) (ci : Nat) : Option Nat :=
  tokens.enum.foldl
    (fun acc p => if p.2.isWord && p.2.charIndex == ci then some p.1 else acc)
    none

/-- `requiredMaxBySystem` entry for one system window: the largest token
index owned by an anchor whose cell lies in the window, `-1` if none. -/
def requiredMaxForWin (tokens : List LyricToken) (anchors : List LyricAnchor)
    (w : SysWin) : Int :=
  anchors.foldl
    (fun m a =>
      if w.startCell ≤ a.cell && a.cell < w.endCell then
        match lastWordIdx tokens a.charIndex with
        | some i => max m (i : Int)
        | none => m
      else m)
    (-1)

/-- The width-fill `while` loop of `chunkTokensForwardOnly`: starting from
token index `pos` (with `rest = tokens.drop pos`, cursor origin `ptr`, and
accumulated width `used`), return the end index of the run.  A run always
takes at least one token and is capped at 260 tokens. -/
def widthFillGo (W : ℚ) (ptr : Nat) : List LyricToken → Nat → ℚ → Nat
  | [], pos, _ => pos
  | t :: more, pos, used =>
      let nextUsed := used + estWidthOfToken t + (if pos == ptr then 0 else gapPx)
      if W < nextUsed && ptr < pos then pos
      else if 260 ≤ pos + 1 - ptr then pos + 1
      else widthFillGo W ptr more (pos + 1) nextUsed

/-- One system's token range `[ptr, end)` in `chunkTokensForwardOnly`:
width-fill, then anchor-driven extension (`if (reqMax >= ptr) ...`), then the
defensive `if (end < ptr) end = ptr`. -/
def chunkEnd (tokens : List LyricToken) (W : ℚ) (ptr : Nat) (reqMax : Int) :
    Nat :=
  let e := widthFillGo W ptr (tokens.drop ptr) ptr 0
  let e :=
    if (ptr : Int) ≤ reqMax then
      let neededEnd := min (reqMax.toNat + 1) tokens.length
      if e < neededEnd then neededEnd else e
    else e
  if e < ptr then ptr else e

/-- The per-system loop of `chunkTokensForwardOnly`, producing the list of
half-open index ranges; `ptr` is the forward-only cursor. -/
def chunkRangesGo (tokens : List LyricToken) (W : ℚ) :
    List Int → Nat → List (Nat × Nat)
  | [], _ => []
  | reqMax :: rest, ptr =>
      if tokens.length ≤ ptr then (ptr, ptr) :: chunkRangesGo tokens W rest ptr
      else
        let e := chunkEnd tokens W ptr reqMax
        (ptr, e) :: chunkRangesGo tokens W rest e

/-- `src/lib/lyrics/chunking.ts` : `chunkTokensForwardOnly` — strictly
forward-only chunking: width-fill each system, extend for anchors in its
window, never move the cursor backward; return the token slices. -/
def chunkTokensForwardOnly (tokens : List LyricToken)
    (anchors : List LyricAnchor) (systems : List SysWin)
    (systemWidthPx : ℚ) : List (List LyricToken) :=
  let reqMaxs := systems.map (requiredMaxForWin tokens anchors)
  (chunkRangesGo tokens systemWidthPx reqMaxs 0).map
    (fun r => (tokens.take r.2).drop r.1)

/-- `findToken` inside `enforceAnchoredTokenOwnership`: the first system
whose chunk contains a word token with the given `charIndex`, together with
the token's index inside that chunk. -/
def findTokenGo (ci : Nat) : List (List LyricToken) → Nat → Option (Nat × Nat)
  | [], _ => none
  | c :: rest, s =>
      match c.findIdx? (fun t => t.isWord && t.charIndex == ci) with
      | some idx => some (s, idx)
      | none => findTokenGo ci rest (s + 1)

/-- `findToken` of `enforceAnchoredTokenOwnership`, scanning from system 0. -/
def findTokenInChunks (chunks : List (List LyricToken)) (ci : Nat) :
    Option (Nat × Nat) :=
  findTokenGo ci chunks 0

/-- One step of `enforceAnchoredTokenOwnership` for the anchor `a` of system
`s`: locate the anchored word token's current system; when it is earlier than
`s`, splice the tail starting at the token out of that chunk and prepend it
to system `s`'s chunk. -/
def ownershipStep (chunks : List (List LyricToken)) (s : Nat)
    (a : LyricAnchor) : List (List LyricToken) :=
  match findTokenInChunks chunks a.charIndex with
  | none => chunks
  | some (curSys, curIdx) =>
      if curSys = s then chunks
      else if s < curSys then chunks
      else
        let cur := chunks.getD curSys []
        let moved := cur.drop curIdx
        let chunks1 := chunks.set curSys (cur.take curIdx)
        if moved.isEmpty then chunks
        else chunks1.set s (moved ++ chunks1.getD s [])

/-- `src/lib/lyrics/chunking.ts` : `enforceAnchoredTokenOwnership` — walk
systems in increasing order and, for every anchor of each system, pull the
anchored token (and the tail after it) forward into that system. -/
def enforceAnchoredTokenOwnership (chunks : List (List LyricToken))
    (anchorsBySystem : List (List LyricAnchor)) : List (List LyricToken) :=
  (List.range chunks.length).foldl
    (fun ch s => (anchorsBySystem.getD s []).foldl
      (fun ch2 a => ownershipStep ch2 s a) ch)
    chunks

/-- `requiredMaxLocal` of the overflow pass: the largest local index in the
chunk holding a word token whose `charIndex` is anchored in this system,
`-1` if none. -/
def requiredMaxLocal (chunkS : List LyricToken)
    (anchorsS : List LyricAnchor) : Int :=
  chunkS.enum.foldl
    (fun m p =>
      if p.2.isWord && anchorsS.any (fun a => a.charIndex == p.2.charIndex)
      then max m (p.1 : Int) else m)
    (-1)

/-- The first laid-out index whose right edge exceeds the system width. -/
def findOverflowIdx (laidOut : List Laid) (W : ℚ) : Option Nat :=
  laidOut.findIdx? (fun p => decide (W < p.2 + estWidthOfToken p.1))

/-- The bounded (`guard < 10`) overflow loop for one system: lay the chunk
out, find the first overflowing token, and if it is not anchor-required,
splice it and everything after it out and prepend to the next system's
chunk. -/
def overflowGuardGo (anchorsS : List LyricAnchor) (win : SysWin)
    (subdivision W : ℚ) (reqMaxLocal : Int) :
    Nat → List LyricToken → List LyricToken →
    List LyricToken × List LyricToken
  | 0, cs, next => (cs, next)
  | fuel + 1, cs, next =>
      let systemBeats := (win.endCell - win.startCell) / subdivision
      let laidOut :=
        layoutOnlyBetweenAnchors cs anchorsS win.startCell systemBeats
          subdivision W
      match findOverflowIdx laidOut W with
      | none => (cs, next)
      | some i =>
          if (i : Int) ≤ reqMaxLocal then (cs, next)
          else
            let moving := cs.drop i
            if moving.isEmpty then (cs, next)
            else overflowGuardGo anchorsS win subdivision W reqMaxLocal fuel
              (cs.take i) (moving ++ next)

/-- The body of the overflow pass for system `s` (`reflowOverflowAcrossSystems`
step 2): skip empty chunks, compute `requiredMaxLocal`, run the bounded
overflow loop, and write back chunks `s` and `s + 1`. -/
def overflowStepAt (anchorsBySystem : List (List LyricAnchor))
    (systemsTiming : List SysWin) (subdivision W : ℚ) (s : Nat)
    (chunks : List (List LyricToken)) : List (List LyricToken) :=
  let cs := chunks.getD s []
  if cs.isEmpty then chunks
  else
    let anchorsS := anchorsBySystem.getD s []
    let win := systemsTiming.getD s ⟨0, 0⟩
    let reqMaxLocal := requiredMaxLocal cs anchorsS
    let r := overflowGuardGo anchorsS win subdivision W reqMaxLocal 10 cs
      (chunks.getD (s + 1) [])
    (chunks.set s r.1).set (s + 1) r.2

/-- The `for (let s = 0; s < chunks.length - 1; s++)` loop of the overflow
pass; the chunk-list length never changes, so the fuel `chunks.length`
suffices. -/
def overflowLoop (anchorsBySystem : List (List LyricAnchor))
    (systemsTiming : List SysWin) (subdivision W : ℚ) :
    Nat → Nat → List (List LyricToken) → List (List LyricToken)
  | 0, _, chunks => chunks
  | fuel + 1, s, chunks =>
      if chunks.length ≤ s + 1 then chunks
      else overflowLoop anchorsBySystem systemsTiming subdivision W fuel
        (s + 1) (overflowStepAt anchorsBySystem systemsTiming subdivision W s chunks)

/-- `src/lib/lyrics/chunking.ts` : `reflowOverflowAcrossSystems` — first
enforce anchored-token ownership, then push visual overflow of each system
(except the last) into the next system, never ejecting anchor-required
tokens. -/
def reflowOverflowAcrossSystems (initialChunks : List (List LyricToken))
    (anchorsBySystem : List (List LyricAnchor))
    (systemsTiming : List SysWin) (subdivision systemWidthPx : ℚ) :
    List (List LyricToken) :=
  let chunks := enforceAnchoredTokenOwnership initialChunks anchorsBySystem
  overflowLoop anchorsBySystem systemsTiming subdivision systemWidthPx
    chunks.length 0 chunks

/-! ## Cell-space position solver (`src/lib/lyrics/layoutCells.ts`,
`layoutOnlyBetweenAnchorsInCells`) -/

/-- `widthPx` local to `layoutOnlyBetweenAnchorsInCells` (identical to
`estWidthOfToken`). -/
def widthPxCells : LyricToken → ℚ
  | .hyphen _ => hyphenPx
  | .word text _ => text.length * charPx + padPx

/-- The safety factor biasing estimated widths wider. -/
def SAFETY : ℚ := 28 / 25

/-- `widthCells`: token width in cells, `0` on degenerate `pxPerCell`. -/
def widthCells (pxPerCell : ℚ) (t : LyricToken) : ℚ :=
  if pxPerCell ≤ 0 then 0 else widthPxCells t * SAFETY / pxPerCell

/-- `baseGapCells`: inter-token gap in cells, `0` on degenerate `pxPerCell`. -/
def baseGapCells (pxPerCell : ℚ) : ℚ :=
  if 0 < pxPerCell then gapPx * SAFETY / pxPerCell else 0

/-- Anchor resolution of the cell-space solver: `tokenIndexByCharIndex`
lookup (word tokens only, last match wins) and clamping of the local cell
into `[0, systemCells]`, then the stable `(i, c)` sort. -/
def anchorPointsCells (tokens : List LyricToken) (anchors : List LyricAnchor)
    (systemStartCell systemCells : ℚ) : List (Nat × ℚ) :=
  sortPts (anchors.filterMap (fun a =>
    match lastWordIdx tokens a.charIndex with
    | none => none
    | some i => some (i, qclamp (a.cell - systemStartCell) 0 systemCells)))

/-- The run positions produced by `packRun` for token indices
`[startIdx, endIdx]` into the span `[leftBound, rightBound]`, as the list of
positions for those indices (empty when `startIdx > endIdx`).  Mirrors the
source: stack at `leftBound` when the span is non-positive; otherwise pack
left with the gap compressed into `[0, maxGapThatFits]`, shift the run left
on overrun (not past `leftBound`), then a final forward non-overlap pass. -/
def packRunPositions (pxPerCell : ℚ) (toks : List LyricToken)
    (leftBound rightBound : ℚ) : List ℚ :=
  let n := toks.length
  if n = 0 then []
  else
    let available := rightBound - leftBound
    if available ≤ 0 then toks.map (fun _ => leftBound)
    else
      let sumW := (toks.map (widthCells pxPerCell)).sum
      let gaps : ℚ := (n : ℚ) - 1
      let gap :=
        if 1 ≤ n - 1 then
          qclamp (baseGapCells pxPerCell) 0 ((available - sumW) / gaps)
        else baseGapCells pxPerCell
      let packed := packLeft pxPerCell toks leftBound gap
      let rightMost := lastRight pxPerCell toks packed
      let shifted :=
        if rightBound < rightMost then
          packed.map (fun c => max leftBound (c - (rightMost - rightBound)))
        else packed
      sweepCellsFix pxPerCell toks shifted
where
  /-- `cursor` packing: position each token at the cursor, advance by width
  plus gap. -/
  packLeft (pxPerCell : ℚ) : List LyricToken → ℚ → ℚ → List ℚ
    | [], _, _ => []
    | t :: rest, cursor, gap =>
        cursor :: packLeft pxPerCell rest (cursor + widthCells pxPerCell t + gap) gap
  /-- `posLocal[endIdx] + widthCells(tokens[endIdx])`: the right edge of the
  last token of the run. -/
  lastRight (pxPerCell : ℚ) (toks : List LyricToken) (pos : List ℚ) : ℚ :=
    match toks.getLast?, pos.getLast? with
    | some t, some c => c + widthCells pxPerCell t
    | _, _ => 0
  /-- the final forward non-overlap enforcement of `packRun` (gap `0`). -/
  sweepCellsFix (pxPerCell : ℚ) (toks : List LyricToken) (pos : List ℚ) : List ℚ :=
    match toks, pos with
    | t :: ts, c :: cs => c :: sweepCellsGo pxPerCell (widthCells pxPerCell t + c) ts cs
    | _, _ => pos
  /-- tail of the forward pass, carrying the previous token's right edge. -/
  sweepCellsGo (pxPerCell : ℚ) : ℚ → List LyricToken → List ℚ → List ℚ
    | _, _, [] => []
    | _, [], cs => cs
    | prevRight, t :: ts, c :: cs =>
        let c' := if c < prevRight then prevRight else c
        c' :: sweepCellsGo pxPerCell (c' + widthCells pxPerCell t) ts cs

/-- Overwrite position `i` of a raw position list (`posLocal[i] = v`). -/
def setPos : List ℚ → Nat → ℚ → List ℚ
  | [], _, _ => []
  | _ :: rest, 0, v => v :: rest
  | c :: rest, n + 1, v => c :: setPos rest n v

/-- Overwrite positions `startIdx, startIdx + 1, …` with the values of
`vals` (a `packRun` writing its run back into `posLocal`). -/
def writeRange (pos : List ℚ) (startIdx : Nat) (vals : List ℚ) : List ℚ :=
  vals.enum.foldl (fun acc p => setPos acc (startIdx + p.1) p.2) pos

/-- `packRun(startIdx, endIdx, leftBound, rightBound)` acting on `posLocal`:
compute the packed positions of the `count`-token run starting at `startIdx`
and write them back. -/
def packRunAt (pxPerCell : ℚ) (tokens : List LyricToken) (pos : List ℚ)
    (startIdx count : Nat) (leftBound rightBound : ℚ) : List ℚ :=
  writeRange pos startIdx
    (packRunPositions pxPerCell ((tokens.drop startIdx).take count) leftBound
      rightBound)

/-- `src/lib/lyrics/layoutCells.ts` : `layoutOnlyBetweenAnchorsInCells` —
print layout in cell space: anchors are hard fence-posts, unanchored runs are
packed left-to-right between them with the gap compressed (down to 0) to fit,
then unanchored positions are soft-clamped into `[0, systemCells]`; the
returned `cell` values are absolute. -/
def layoutOnlyBetweenAnchorsInCells (tokens : List LyricToken)
    (anchors : List LyricAnchor) (systemStartCell systemCells pxPerCell : ℚ) :
    List (LyricToken × ℚ) :=
  let pts := anchorPointsCells tokens anchors systemStartCell systemCells
  let pos0 : List ℚ := tokens.map (fun _ => 0)
  match pts with
  | [] =>
      let pos := packRunAt pxPerCell tokens pos0 0 tokens.length 0 systemCells
      tokens.zip (pos.map (fun c => systemStartCell + c))
  | first :: restPts =>
      let pos1 := (first :: restPts).foldl (fun acc p => setPos acc p.1 p.2) pos0
      let pos2 :=
        if 0 < first.1 then packRunAt pxPerCell tokens pos1 0 first.1 0 first.2
        else pos1
      let pairs := (first :: restPts).zip restPts
      let pos3 := pairs.foldl
        (fun acc pq =>
          let a := pq.1
          let b := pq.2
          if a.1 + 1 ≤ b.1 - 1 then
            packRunAt pxPerCell tokens acc (a.1 + 1) (b.1 - 1 - a.1)
              (a.2 + widthCells pxPerCell (tokens.getD a.1 (.hyphen 0)) +
                baseGapCells pxPerCell)
              b.2
          else acc)
        pos2
      let last := (first :: restPts).getLastD first
      let pos4 :=
        if last.1 < tokens.length - 1 then
          packRunAt pxPerCell tokens pos3 (last.1 + 1)
            (tokens.length - 1 - last.1)
            (last.2 + widthCells pxPerCell (tokens.getD last.1 (.hyphen 0)) +
              baseGapCells pxPerCell)
            systemCells
        else pos3
      let pos5 := pos4.enum.map (fun p =>
        if (first :: restPts).any (fun q => q.1 == p.1) then p.2
        else qclamp p.2 0 systemCells)
      tokens.zip (pos5.map (fun c => systemStartCell + c))

/-! ## The whole pipeline (tokenize → chunk → reflow → per-system layout)

This is the composition the editor performs on every input change:
`tokenizeAllLyrics` → `chunkTokensForwardOnly` → `reflowOverflowAcrossSystems`
→ `layoutOnlyBetweenAnchors` on each system's final chunk. -/

def fullPipeline (lyrics : String) (anchors : List LyricAnchor)
    (systems : List SysWin) (subdivision systemWidthPx : ℚ) :
    List (List Laid) :=
  let tokens := tokenizeAllLyrics lyrics
  let chunks := chunkTokensForwardOnly tokens anchors systems systemWidthPx
  let absys := buildAnchorsBySystem anchors systems
  let final := reflowOverflowAcrossSystems chunks absys systems subdivision
    systemWidthPx
  (List.range final.length).map (fun s =>
    let w := systems.getD s ⟨0, 0⟩
    layoutOnlyBetweenAnchors (final.getD s []) (absys.getD s [])
      w.startCell ((w.endCell - w.startCell) / subdivision) subdivision
      systemWidthPx)

/-! ## IEEE-754 semantics of the anchor-position formula

`ℚ` cannot express what JavaScript actually does on degenerate geometry, so
the anchor-x computation of `layoutOnlyBetweenAnchors`
(`src/lib/lyrics/layout.ts` lines 46–48) is modelled once more over a type
with NaN and the infinities, with the IEEE-754 rules for the operations the
formula uses. -/

inductive JsNum where
  | num (q : ℚ)
  | nan
  | inf
  | negInf
  deriving DecidableEq, Repr

/-- IEEE subtraction (finite cases and the propagation rules needed here). -/
def JsNum.sub : JsNum → JsNum → JsNum
  | .num a, .num b => .num (a - b)
  | .nan, _ => .nan
  | _, .nan => .nan
  | .inf, .inf => .nan
  | .inf, _ => .inf
  | .negInf, .negInf => .nan
  | .negInf, _ => .negInf
  | .num _, .inf => .negInf
  | .num _, .negInf => .inf

/-- IEEE division: `x / 0` is NaN for `x = 0` and a signed infinity
otherwise. -/
def JsNum.div : JsNum → JsNum → JsNum
  | .num a, .num b =>
      if b = 0 then (if a = 0 then .nan else if 0 < a then .inf else .negInf)
      else .num (a / b)
  | .nan, _ => .nan
  | _, .nan => .nan
  | .inf, .num b => if 0 ≤ b then .inf else .negInf
  | .negInf, .num b => if 0 ≤ b then .negInf else .inf
  | .inf, _ => .nan
  | .negInf, _ => .nan
  | .num _, .inf => .num 0
  | .num _, .negInf => .num 0

/-- IEEE multiplication: `NaN` propagates; `±∞ * 0` is NaN. -/
def JsNum.mul : JsNum → JsNum → JsNum
  | .num a, .num b => .num (a * b)
  | .nan, _ => .nan
  | _, .nan => .nan
  | .inf, .num b => if b = 0 then .nan else if 0 < b then .inf else .negInf
  | .num a, .inf => if a = 0 then .nan else if 0 < a then .inf else .negInf
  | .negInf, .num b => if b = 0 then .nan else if 0 < b then .negInf else .inf
  | .num a, .negInf => if a = 0 then .nan else if 0 < a then .negInf else .inf
  | .inf, .inf => .inf
  | .inf, .negInf => .negInf
  | .negInf, .inf => .negInf
  | .negInf, .negInf => .inf

/-- `Math.min` (NaN-propagating). -/
def JsNum.jmin : JsNum → JsNum → JsNum
  | .nan, _ => .nan
  | _, .nan => .nan
  | .num a, .num b => .num (min a b)
  | .negInf, _ => .negInf
  | _, .negInf => .negInf
  | .inf, b => b
  | a, .inf => a

/-- `Math.max` (NaN-propagating). -/
def JsNum.jmax : JsNum → JsNum → JsNum
  | .nan, _ => .nan
  | _, .nan => .nan
  | .num a, .num b => .num (max a b)
  | .inf, _ => .inf
  | _, .inf => .inf
  | .negInf, b => b
  | a, .negInf => a

/-- The `clamp` helper of `src/lib/lyrics/layout.ts` under IEEE semantics:
`Math.max(min, Math.min(max, n))`. -/
def jsClamp (n lo hi : JsNum) : JsNum := lo.jmax (hi.jmin n)

/-- The anchor-x computation of `layoutOnlyBetweenAnchors`
(`src/lib/lyrics/layout.ts` lines 46–48) under IEEE semantics:
`beat = (cell - systemStartCell) / subdivision`,
`beatClamped = clamp(beat, 0, systemBeats)`,
`x = (beatClamped / systemBeats) * systemWidthPx`. -/
def anchorXJs (cell systemStartCell subdivision systemBeats systemWidthPx :
    JsNum) : JsNum :=
  let beat := (cell.sub systemStartCell).div subdivision
  let beatClamped := jsClamp beat (.num 0) systemBeats
  (beatClamped.div systemBeats).mul systemWidthPx

/-! ## Generic fold helpers -/

theorem foldl_preserve {α β : Type} (P : α → Prop) (f : α → β → α)
    (h : ∀ a b, P a → P (f a b)) :
    ∀ (l : List β) (a : α), P a → P (l.foldl f a) := by
  intro l
  induction l with
  | nil => intro a ha; simpa using ha
  | cons b rest ih => intro a ha; exact ih _ (h a b ha)

/-! ## The position solvers assign positions but keep the token sequence -/

theorem linearFlow_map_fst (ts : List LyricToken) (c : ℚ) :
    (linearFlow ts c).map Prod.fst = ts := by
  induction ts generalizing c with
  | nil => rfl
  | cons t rest ih => simp [linearFlow, ih]

theorem setX_map_fst (l : List Laid) (i : Nat) (v : ℚ) :
    (setX l i v).map Prod.fst = l.map Prod.fst := by
  induction l generalizing i with
  | nil => rfl
  | cons p rest ih =>
      cases i with
      | zero => simp [setX]
      | succ n => simp [setX, ih]

theorem snapAnchors_map_fst (l : List Laid) (pts : List (Nat × ℚ)) :
    (snapAnchors l pts).map Prod.fst = l.map Prod.fst := by
  unfold snapAnchors
  refine foldl_preserve (fun m => m.map Prod.fst = l.map Prod.fst) _ ?_ pts l rfl
  intro a b h
  rw [setX_map_fst, h]

theorem spreadSegment_map_fst (l : List Laid) (ai : Nat) (ax : ℚ) (bi : Nat)
    (bx : ℚ) : (spreadSegment l ai ax bi bx).map Prod.fst = l.map Prod.fst := by
  unfold spreadSegment
  refine foldl_preserve (fun m => m.map Prod.fst = l.map Prod.fst) _ ?_ _ l rfl
  intro a b h
  rw [setX_map_fst, h]

theorem spreadBetweenAnchors_map_fst (l : List Laid) (pts : List (Nat × ℚ)) :
    (spreadBetweenAnchors l pts).map Prod.fst = l.map Prod.fst := by
  unfold spreadBetweenAnchors
  refine foldl_preserve (fun m => m.map Prod.fst = l.map Prod.fst) _ ?_ _ l rfl
  intro a b h
  rw [spreadSegment_map_fst, h]

theorem sweepGo_map_fst (p : Laid) (l : List Laid) :
    (sweepGo p l).map Prod.fst = l.map Prod.fst := by
  induction l generalizing p with
  | nil => rfl
  | cons cur rest ih =>
      simp only [sweepGo]
      by_cases h : cur.2 < p.2 + estWidthOfToken p.1 + gapPx <;>
        simp [h, ih]

theorem sweep_map_fst (l : List Laid) : (sweep l).map Prod.fst = l.map Prod.fst := by
  cases l with
  | nil => rfl
  | cons p rest => simp [sweep, sweepGo_map_fst]

theorem hyphenCenterGo_map_fst (p : Laid) (l : List Laid) :
    (hyphenCenterGo p l).map Prod.fst = l.map Prod.fst := by
  induction l generalizing p with
  | nil => rfl
  | cons cur rest ih =>
      cases rest with
      | nil => rfl
      | cons next more =>
          simp only [hyphenCenterGo]
          by_cases h : (cur.1.isHyphen && p.1.isWord && next.1.isWord) = true <;>
            simp [h, ih]

theorem hyphenCenter_map_fst (l : List Laid) :
    (hyphenCenter l).map Prod.fst = l.map Prod.fst := by
  cases l with
  | nil => rfl
  | cons p rest => simp [hyphenCenter, hyphenCenterGo_map_fst]

/-- The pixel-space solver emits exactly one `{token, x}` per input token,
with the tokens unchanged and in order. -/
theorem layout_map_fst (tokens : List LyricToken) (anchors : List LyricAnchor)
    (ssc sb subdiv w : ℚ) :
    (layoutOnlyBetweenAnchors tokens anchors ssc sb subdiv w).map Prod.fst =
      tokens := by
  unfold layoutOnlyBetweenAnchors
  by_cases h1 : 1 ≤ (anchorPoints tokens anchors ssc sb subdiv w).length
  · simp only [h1, if_pos]
    rw [hyphenCenter_map_fst, sweep_map_fst, spreadBetweenAnchors_map_fst,
      snapAnchors_map_fst, linearFlow_map_fst]
  · simp only [h1, if_neg, not_false_iff]
    by_cases h2 : tokens.isEmpty
    · simp [h2, List.isEmpty_iff.mp h2]
    · simp only [h2, Bool.false_eq_true, if_false, if_neg]
      rw [hyphenCenter_map_fst, List.map_map]
      have : (Prod.fst ∘ fun p : Laid => (p.1, p.2 +
          (if w < maxRightOf (linearFlow tokens 0) - minLeftOf (linearFlow tokens 0)
            then -minLeftOf (linearFlow tokens 0)
            else if w - maxRightOf (linearFlow tokens 0) < -minLeftOf (linearFlow tokens 0)
              then w - maxRightOf (linearFlow tokens 0)
              else -minLeftOf (linearFlow tokens 0)))) = Prod.fst := rfl
      rw [this, linearFlow_map_fst]

theorem setPos_length (l : List ℚ) (i : Nat) (v : ℚ) :
    (setPos l i v).length = l.length := by
  induction l generalizing i with
  | nil => rfl
  | cons c rest ih =>
      cases i with
      | zero => simp [setPos]
      | succ n => simp [setPos, ih]

theorem writeRange_length (pos : List ℚ) (s : Nat) (vals : List ℚ) :
    (writeRange pos s vals).length = pos.length := by
  unfold writeRange
  refine foldl_preserve (fun (m : List ℚ) => m.length = pos.length)
    (fun acc p => setPos acc (s + p.1) p.2) ?_ vals.enum pos rfl
  intro a b h
  show (setPos a (s + b.1) b.2).length = pos.length
  rw [setPos_length]; exact h

theorem packRunAt_length (px : ℚ) (tokens : List LyricToken) (pos : List ℚ)
    (s c : Nat) (lb rb : ℚ) :
    (packRunAt px tokens pos s c lb rb).length = pos.length := by
  unfold packRunAt
  exact writeRange_length _ _ _

/-- The cell-space solver also emits exactly one `{token, cell}` per input
token, in order. -/
theorem layoutCells_map_fst (tokens : List LyricToken)
    (anchors : List LyricAnchor) (ssc sc px : ℚ) :
    (layoutOnlyBetweenAnchorsInCells tokens anchors ssc sc px).map Prod.fst =
      tokens := by
  unfold layoutOnlyBetweenAnchorsInCells
  have hzip : ∀ (pos : List ℚ), tokens.length ≤ pos.length →
      (tokens.zip (pos.map (fun c => ssc + c))).map Prod.fst = tokens := by
    intro pos h
    exact List.map_fst_zip _ _ (by simpa using h)
  cases hpts : anchorPointsCells tokens anchors ssc sc with
  | nil =>
      apply hzip
      rw [packRunAt_length]
      simp
  | cons first restPts =>
      apply hzip
      have h1 : ((first :: restPts).foldl
          (fun acc p => setPos acc p.1 p.2)
          (tokens.map (fun _ => (0:ℚ)))).length = tokens.length := by
        refine foldl_preserve (fun (m : List ℚ) => m.length = tokens.length)
          (fun (acc : List ℚ) (p : Nat × ℚ) => setPos acc p.1 p.2) ?_ _ _
          (by simp)
        intro a b h
        show (setPos a b.1 b.2).length = tokens.length
        rw [setPos_length]; exact h
      have h2len : ∀ (p0 : List ℚ), p0.length = tokens.length →
          ((if 0 < first.1 then packRunAt px tokens p0 0 first.1 0 first.2
            else p0)).length = tokens.length := by
        intro p0 h
        by_cases hc : 0 < first.1 <;> simp [hc, packRunAt_length, h]
      have h3len : ∀ (p0 : List ℚ), p0.length = tokens.length →
          (((first :: restPts).zip restPts).foldl
            (fun acc pq =>
              if pq.1.1 + 1 ≤ pq.2.1 - 1 then
                packRunAt px tokens acc (pq.1.1 + 1) (pq.2.1 - 1 - pq.1.1)
                  (pq.1.2 + widthCells px (tokens.getD pq.1.1 (.hyphen 0)) +
                    baseGapCells px) pq.2.2
              else acc) p0).length = tokens.length := by
        intro p0 h
        refine foldl_preserve (fun (m : List ℚ) => m.length = tokens.length)
          (fun (acc : List ℚ) (pq : (Nat × ℚ) × (Nat × ℚ)) =>
            if pq.1.1 + 1 ≤ pq.2.1 - 1 then
              packRunAt px tokens acc (pq.1.1 + 1) (pq.2.1 - 1 - pq.1.1)
                (pq.1.2 + widthCells px (tokens.getD pq.1.1 (.hyphen 0)) +
                  baseGapCells px) pq.2.2
            else acc) ?_ _ _ h
        intro a b hl
        show (if b.1.1 + 1 ≤ b.2.1 - 1 then
            packRunAt px tokens a (b.1.1 + 1) (b.2.1 - 1 - b.1.1)
              (b.1.2 + widthCells px (tokens.getD b.1.1 (.hyphen 0)) +
                baseGapCells px) b.2.2
          else a).length = tokens.length
        by_cases hc : b.1.1 + 1 ≤ b.2.1 - 1 <;> simp [hc, packRunAt_length, hl]
      have h4len : ∀ (p0 : List ℚ) (lastp : Nat × ℚ), p0.length = tokens.length →
          ((if lastp.1 < tokens.length - 1 then
              packRunAt px tokens p0 (lastp.1 + 1) (tokens.length - 1 - lastp.1)
                (lastp.2 + widthCells px (tokens.getD lastp.1 (.hyphen 0)) +
                  baseGapCells px) sc
            else p0)).length = tokens.length := by
        intro p0 lastp h
        by_cases hc : lastp.1 < tokens.length - 1 <;>
          simp [hc, packRunAt_length, h]
      rw [List.length_map, List.enum_length,
        h4len _ _ (h3len _ (h2len _ h1))]

/-! ## Non-overlap: after the forward pass (and hyphen centering) every pair
of consecutive laid-out tokens clears the previous token's width plus the
fixed gap -/

/-- The non-overlap relation between consecutive laid-out tokens: the right
edge of the first plus the gap is at most the position of the second. -/
def NoOverlap (a b : Laid) : Prop := a.2 + estWidthOfToken a.1 + gapPx ≤ b.2

theorem chain'_sweepGo (prev : Laid) (l : List Laid) :
    List.Chain' NoOverlap (prev :: sweepGo prev l) := by
  induction l generalizing prev with
  | nil => simp [sweepGo]
  | cons cur rest ih =>
      simp only [sweepGo]
      by_cases h : cur.2 < prev.2 + estWidthOfToken prev.1 + gapPx
      · simp only [h, if_pos]
        refine List.chain'_cons.mpr ⟨le_refl _, ?_⟩
        exact ih (cur.1, prev.2 + estWidthOfToken prev.1 + gapPx)
      · simp only [h, if_neg, not_false_iff]
        refine List.chain'_cons.mpr ⟨le_of_not_lt h, ih cur⟩

theorem chain'_sweep (l : List Laid) : List.Chain' NoOverlap (sweep l) := by
  cases l with
  | nil => simp [sweep]
  | cons p rest => exact chain'_sweepGo p rest

theorem chain'_hyphenCenterGo (prev : Laid) (l : List Laid)
    (h : List.Chain' NoOverlap (prev :: l)) :
    List.Chain' NoOverlap (prev :: hyphenCenterGo prev l) := by
  induction l generalizing prev with
  | nil => simp [hyphenCenterGo]
  | cons cur rest ih =>
      cases rest with
      | nil => simpa [hyphenCenterGo] using h
      | cons next more =>
          have hpc : NoOverlap prev cur := (List.chain'_cons.mp h).1
          have htail : List.Chain' NoOverlap (cur :: next :: more) :=
            (List.chain'_cons.mp h).2
          have hcn : NoOverlap cur next := (List.chain'_cons.mp htail).1
          have htail2 : List.Chain' NoOverlap (next :: more) :=
            (List.chain'_cons.mp htail).2
          simp only [hyphenCenterGo]
          by_cases hcond : (cur.1.isHyphen && prev.1.isWord && next.1.isWord) = true
          · simp only [hcond, if_pos]
            set cur' : Laid :=
              (cur.1, (prev.2 + estWidthOfToken prev.1 + next.2) / 2 -
                estWidthOfToken cur.1 / 2) with hcur'
            have hpc' : NoOverlap prev cur' := by
              show prev.2 + estWidthOfToken prev.1 + gapPx ≤
                (prev.2 + estWidthOfToken prev.1 + next.2) / 2 -
                  estWidthOfToken cur.1 / 2
              have h1 : prev.2 + estWidthOfToken prev.1 + gapPx ≤ cur.2 := hpc
              have h2 : cur.2 + estWidthOfToken cur.1 + gapPx ≤ next.2 := hcn
              linarith
            have hcn' : NoOverlap cur' next := by
              show cur'.2 + estWidthOfToken cur'.1 + gapPx ≤ next.2
              have h1 : prev.2 + estWidthOfToken prev.1 + gapPx ≤ cur.2 := hpc
              have h2 : cur.2 + estWidthOfToken cur.1 + gapPx ≤ next.2 := hcn
              show (prev.2 + estWidthOfToken prev.1 + next.2) / 2 -
                estWidthOfToken cur.1 / 2 + estWidthOfToken cur.1 + gapPx ≤ next.2
              linarith
            refine List.chain'_cons.mpr ⟨hpc', ?_⟩
            exact ih cur' (List.chain'_cons.mpr ⟨hcn', htail2⟩)
          · simp only [hcond, if_neg, not_false_iff]
            refine List.chain'_cons.mpr ⟨hpc, ?_⟩
            exact ih cur (List.chain'_cons.mpr ⟨hcn, htail2⟩)

theorem chain'_hyphenCenter (l : List Laid)
    (h : List.Chain' NoOverlap l) : List.Chain' NoOverlap (hyphenCenter l) := by
  cases l with
  | nil => simp [hyphenCenter]
  | cons p rest => exact chain'_hyphenCenterGo p rest h

theorem chain'_linearFlow (ts : List LyricToken) (c : ℚ) :
    List.Chain' NoOverlap (linearFlow ts c) := by
  induction ts generalizing c with
  | nil => simp [linearFlow]
  | cons t rest ih =>
      cases rest with
      | nil => simp [linearFlow]
      | cons u more =>
          simp only [linearFlow]
          refine List.chain'_cons.mpr ⟨le_refl _, ?_⟩
          exact ih (c + estWidthOfToken t + gapPx)

theorem chain'_shift (l : List Laid) (s : ℚ)
    (h : List.Chain' NoOverlap l) :
    List.Chain' NoOverlap (l.map (fun p => (p.1, p.2 + s))) := by
  rw [List.chain'_map]
  refine List.Chain'.imp ?_ h
  intro a b hab
  show a.2 + s + estWidthOfToken a.1 + gapPx ≤ b.2 + s
  have : a.2 + estWidthOfToken a.1 + gapPx ≤ b.2 := hab
  linarith

/-- The whole pixel-space solver output satisfies the non-overlap chain:
every consecutive pair clears width plus gap (the forward pass repairs the
anchored branch, the linear flow already satisfies it in the unanchored
branch, and hyphen centering preserves it). -/
theorem layout_noOverlap (tokens : List LyricToken)
    (anchors : List LyricAnchor) (ssc sb subdiv w : ℚ) :
    List.Chain' NoOverlap
      (layoutOnlyBetweenAnchors tokens anchors ssc sb subdiv w) := by
  unfold layoutOnlyBetweenAnchors
  by_cases h1 : 1 ≤ (anchorPoints tokens anchors ssc sb subdiv w).length
  · simp only [h1, if_pos]
    exact chain'_hyphenCenter _ (chain'_sweep _)
  · simp only [h1, if_neg, not_false_iff]
    by_cases h2 : tokens.isEmpty
    · simp [h2]
    · simp only [h2, Bool.false_eq_true, if_false, if_neg]
      exact chain'_hyphenCenter _ (chain'_shift _ _ (chain'_linearFlow _ _))

/-! ## Anchor clamping: resolved anchor positions stay inside the system -/

theorem insertPt_perm (p : Nat × ℚ) (l : List (Nat × ℚ)) :
    (insertPt p l).Perm (p :: l) := by
  induction l with
  | nil => rfl
  | cons q rest ih =>
      simp only [insertPt]
      by_cases h : anchorPointLE p q
      · simp [h]
      · simp only [h, Bool.false_eq_true, if_false, if_neg]
        exact (ih.cons q).trans (List.Perm.swap p q rest)

theorem sortPts_perm (l : List (Nat × ℚ)) : (sortPts l).Perm l := by
  induction l with
  | nil => rfl
  | cons p rest ih =>
      exact (insertPt_perm p (sortPts rest)).trans (ih.cons p)

theorem mem_sortPts {p : Nat × ℚ} {l : List (Nat × ℚ)} :
    p ∈ sortPts l ↔ p ∈ l := (sortPts_perm l).mem_iff

theorem qclamp_nonneg (n hi : ℚ) (_h : 0 ≤ hi) : 0 ≤ qclamp n 0 hi :=
  le_max_left 0 _

theorem qclamp_le (n hi : ℚ) (h : 0 ≤ hi) : qclamp n 0 hi ≤ hi :=
  max_le h (min_le_left hi n)

/-- Every anchor point resolved by the pixel solver comes from an anchor via
the clamped linear map. -/
theorem anchorPoints_spec (tokens : List LyricToken)
    (anchors : List LyricAnchor) (ssc sb subdiv w : ℚ) (p : Nat × ℚ)
    (hp : p ∈ anchorPoints tokens anchors ssc sb subdiv w) :
    ∃ a ∈ anchors, findWordIdx tokens a.charIndex = some p.1 ∧
      p.2 = qclamp ((a.cell - ssc) / subdiv) 0 sb / sb * w := by
  unfold anchorPoints at hp
  rw [mem_sortPts] at hp
  rcases List.mem_filterMap.mp hp with ⟨a, ha, hmatch⟩
  refine ⟨a, ha, ?_⟩
  unfold anchorPointOfAnchor at hmatch
  cases hidx : findWordIdx tokens a.charIndex with
  | none => rw [hidx] at hmatch; simp at hmatch
  | some i =>
      rw [hidx] at hmatch
      simp only [Option.some_inj] at hmatch
      cases hmatch
      exact ⟨rfl, rfl⟩

/-- Pixel-space clamping bound: with positive `systemBeats` and nonnegative
width, every resolved anchor position lies in `[0, systemWidthPx]`. -/
theorem anchorPoints_bounds (tokens : List LyricToken)
    (anchors : List LyricAnchor) (ssc sb subdiv w : ℚ)
    (hsb : 0 < sb) (hw : 0 ≤ w) (p : Nat × ℚ)
    (hp : p ∈ anchorPoints tokens anchors ssc sb subdiv w) :
    0 ≤ p.2 ∧ p.2 ≤ w := by
  rcases anchorPoints_spec tokens anchors ssc sb subdiv w p hp with
    ⟨a, _, _, hx⟩
  rw [hx]
  have h0 : 0 ≤ qclamp ((a.cell - ssc) / subdiv) 0 sb :=
    qclamp_nonneg _ _ hsb.le
  have h1 : qclamp ((a.cell - ssc) / subdiv) 0 sb ≤ sb :=
    qclamp_le _ _ hsb.le
  have hr0 : 0 ≤ qclamp ((a.cell - ssc) / subdiv) 0 sb / sb :=
    div_nonneg h0 hsb.le
  have hr1 : qclamp ((a.cell - ssc) / subdiv) 0 sb / sb ≤ 1 :=
    (div_le_one hsb).mpr h1
  constructor
  · exact mul_nonneg hr0 hw
  · calc qclamp ((a.cell - ssc) / subdiv) 0 sb / sb * w ≤ 1 * w :=
        mul_le_mul_of_nonneg_right hr1 hw
      _ = w := one_mul w

/-- Cell-space clamping bound: every resolved anchor's local cell is clamped
into `[0, systemCells]`. -/
theorem anchorPointsCells_bounds (tokens : List LyricToken)
    (anchors : List LyricAnchor) (ssc sc : ℚ) (hsc : 0 ≤ sc) (p : Nat × ℚ)
    (hp : p ∈ anchorPointsCells tokens anchors ssc sc) :
    0 ≤ p.2 ∧ p.2 ≤ sc := by
  unfold anchorPointsCells at hp
  rw [mem_sortPts] at hp
  rcases List.mem_filterMap.mp hp with ⟨a, _, hmatch⟩
  cases hidx : lastWordIdx tokens a.charIndex with
  | none => rw [hidx] at hmatch; simp at hmatch
  | some i =>
      rw [hidx] at hmatch
      simp only [Option.some_inj] at hmatch
      cases hmatch
      exact ⟨qclamp_nonneg _ _ hsc, qclamp_le _ _ hsc⟩

/-! ## Anchor fixedness machinery -/

/-- Default element for `getD` on laid-out lists. -/
def dLaid : Laid := (.hyphen 0, 0)

theorem findIdx?_some_spec {α : Type} (p : α → Bool) (l : List α) (i : Nat)
    (d : α) (h : l.findIdx? p = some i) :
    i < l.length ∧ p (l.getD i d) = true := by
  induction l generalizing i with
  | nil => simp [List.findIdx?] at h
  | cons a rest ih =>
      rw [List.findIdx?_cons] at h
      by_cases hp : p a
      · simp only [hp, if_pos, Option.some_inj] at h
        subst h
        simpa using hp
      · rw [if_neg (by simpa using hp), List.findIdx?_succ,
          Option.map_eq_some'] at h
        rcases h with ⟨j, hj, hji⟩
        rcases ih j hj with ⟨h1, h2⟩
        subst hji
        exact ⟨by simpa using Nat.succ_lt_succ h1, by simpa using h2⟩

theorem findIdx?_isSome_of_mem {α : Type} (p : α → Bool) (l : List α) (a : α)
    (ha : a ∈ l) (hp : p a = true) : (l.findIdx? p).isSome := by
  induction l with
  | nil => simp at ha
  | cons b rest ih =>
      rw [List.findIdx?_cons]
      by_cases hb : p b
      · simp [hb]
      · rcases List.mem_cons.mp ha with rfl | ha'
        · exact absurd hp hb
        · simp only [hb, Bool.false_eq_true, if_false, if_neg]
          simpa using ih ha'

theorem setX_getD_self (l : List Laid) (i : Nat) (v : ℚ) (hi : i < l.length) :
    (setX l i v).getD i dLaid = ((l.getD i dLaid).1, v) := by
  induction l generalizing i with
  | nil => simp at hi
  | cons p rest ih =>
      cases i with
      | zero => simp [setX]
      | succ n =>
          simp only [setX, List.getD_cons_succ]
          exact ih n (by simpa using hi)

theorem setX_getD_ne (l : List Laid) (i j : Nat) (v : ℚ) (hij : j ≠ i) :
    (setX l i v).getD j dLaid = l.getD j dLaid := by
  induction l generalizing i j with
  | nil => simp [setX]
  | cons p rest ih =>
      cases i with
      | zero =>
          cases j with
          | zero => exact absurd rfl hij
          | succ m => simp [setX]
      | succ n =>
          cases j with
          | zero => simp [setX]
          | succ m =>
              simp only [setX, List.getD_cons_succ]
              exact ih n m (fun hh => hij (by rw [hh]))

theorem setX_length (l : List Laid) (i : Nat) (v : ℚ) :
    (setX l i v).length = l.length := by
  induction l generalizing i with
  | nil => rfl
  | cons p rest ih =>
      cases i with
      | zero => simp [setX]
      | succ n => simp [setX, ih]

/-- Snapping leaves untouched every index that is no point's index. -/
theorem snapAnchors_getD_notMem (l : List Laid) (pts : List (Nat × ℚ))
    (j : Nat) (hj : ∀ q ∈ pts, q.1 ≠ j) :
    (snapAnchors l pts).getD j dLaid = l.getD j dLaid := by
  induction pts generalizing l with
  | nil => rfl
  | cons q rest ih =>
      show (snapAnchors (setX l q.1 q.2) rest).getD j dLaid = l.getD j dLaid
      rw [ih (setX l q.1 q.2) (fun r hr => hj r (List.mem_cons_of_mem q hr))]
      exact setX_getD_ne l q.1 j q.2
        (fun hh => hj q (List.mem_cons_self q rest) hh.symm)

/-- With pairwise-distinct point indices, snapping puts every point's value
at its index (keeping the token). -/
theorem snapAnchors_getD_mem (l : List Laid) (pts : List (Nat × ℚ))
    (i : Nat) (ax : ℚ) (hmem : (i, ax) ∈ pts)
    (hnodup : (pts.map Prod.fst).Nodup) (hi : i < l.length) :
    (snapAnchors l pts).getD i dLaid = ((l.getD i dLaid).1, ax) := by
  induction pts generalizing l with
  | nil => simp at hmem
  | cons q rest ih =>
      have hnodup' : (rest.map Prod.fst).Nodup := (List.nodup_cons.mp hnodup).2
      rcases List.mem_cons.mp hmem with rfl | hmem'
      · show (snapAnchors (setX l i ax) rest).getD i dLaid = _
        have hq : ∀ r ∈ rest, r.1 ≠ i := by
          intro r hr hri
          have h1 : (i : Nat) ∈ rest.map Prod.fst := by
            rw [← hri]; exact List.mem_map_of_mem Prod.fst hr
          exact (List.nodup_cons.mp hnodup).1 h1
        rw [snapAnchors_getD_notMem _ _ _ hq]
        exact setX_getD_self l i ax hi
      · show (snapAnchors (setX l q.1 q.2) rest).getD i dLaid = _
        rw [ih _ hmem' hnodup' (by rw [setX_length]; exact hi)]
        by_cases hqi : q.1 = i
        · rw [hqi, setX_getD_self l i q.2 hi]
        · rw [setX_getD_ne l q.1 i q.2 (fun hh => hqi hh.symm)]

theorem foldl_preserve_mem {α β : Type} (P : α → Prop) (f : α → β → α)
    (l : List β) (h : ∀ a b, b ∈ l → P a → P (f a b)) :
    ∀ (a : α), P a → P (l.foldl f a) := by
  induction l with
  | nil => intro a ha; simpa using ha
  | cons b rest ih =>
      intro a ha
      exact ih (fun a' b' hb' ha' => h a' b' (List.mem_cons_of_mem b hb') ha')
        _ (h a b (List.mem_cons_self b rest) ha)

/-- The even-spread of one segment writes only indices strictly between the
two anchor indices. -/
theorem spreadSegment_getD_out (l : List Laid) (ai : Nat) (ax : ℚ) (bi : Nat)
    (bx : ℚ) (j : Nat) (hj : j ≤ ai ∨ bi ≤ j) :
    (spreadSegment l ai ax bi bx).getD j dLaid = l.getD j dLaid := by
  unfold spreadSegment
  refine foldl_preserve_mem (fun m => m.getD j dLaid = l.getD j dLaid)
    _ _ ?_ l rfl
  intro a k hk ha
  have hrange := List.mem_range'.mp hk
  have hkj : j ≠ k := by omega
  show (setX a k _).getD j dLaid = l.getD j dLaid
  rw [setX_getD_ne a k j _ hkj]
  exact ha

/-- The relation the stable sort establishes. -/
def ptLE (p q : Nat × ℚ) : Prop := anchorPointLE p q = true

theorem ptLE_total (p q : Nat × ℚ) (h : ¬ ptLE p q) : ptLE q p := by
  unfold ptLE anchorPointLE at *
  simp only [Bool.or_eq_true, Bool.and_eq_true, decide_eq_true_eq,
    beq_iff_eq] at *
  push_neg at h
  rcases Nat.lt_trichotomy q.1 p.1 with hlt | heq | hgt
  · exact Or.inl hlt
  · exact Or.inr ⟨heq, le_of_lt (h.2 heq.symm)⟩
  · exact absurd hgt (not_lt.mpr h.1)

theorem ptLE_trans (p q r : Nat × ℚ) (h1 : ptLE p q) (h2 : ptLE q r) :
    ptLE p r := by
  unfold ptLE anchorPointLE at *
  simp only [Bool.or_eq_true, Bool.and_eq_true, decide_eq_true_eq,
    beq_iff_eq] at *
  rcases h1 with h1 | ⟨h1a, h1b⟩ <;> rcases h2 with h2 | ⟨h2a, h2b⟩
  · exact Or.inl (h1.trans h2)
  · exact Or.inl (h2a ▸ h1)
  · exact Or.inl (h1a ▸ h2)
  · exact Or.inr ⟨h1a.trans h2a, h1b.trans h2b⟩

theorem ptLE_fst (p q : Nat × ℚ) (h : ptLE p q) : p.1 ≤ q.1 := by
  unfold ptLE anchorPointLE at h
  simp only [Bool.or_eq_true, Bool.and_eq_true, decide_eq_true_eq,
    beq_iff_eq] at h
  rcases h with h | ⟨h, _⟩
  · exact h.le
  · exact h.le

theorem insertPt_pairwise (p : Nat × ℚ) (l : List (Nat × ℚ))
    (hl : l.Pairwise ptLE) : (insertPt p l).Pairwise ptLE := by
  induction l with
  | nil => simp [insertPt]
  | cons q rest ih =>
      simp only [insertPt]
      by_cases h : anchorPointLE p q
      · simp only [h, if_pos]
        refine List.Pairwise.cons ?_ hl
        intro r hr
        rcases List.mem_cons.mp hr with rfl | hr'
        · exact h
        · exact ptLE_trans p q r h ((List.pairwise_cons.mp hl).1 r hr')
      · simp only [h, Bool.false_eq_true, if_false, if_neg]
        refine List.Pairwise.cons ?_ (ih (List.pairwise_cons.mp hl).2)
        intro r hr
        have : r ∈ p :: rest := (insertPt_perm p rest).mem_iff.mp hr
        rcases List.mem_cons.mp this with rfl | hr'
        · exact ptLE_total r q h
        · exact (List.pairwise_cons.mp hl).1 r hr'

theorem sortPts_pairwise (l : List (Nat × ℚ)) : (sortPts l).Pairwise ptLE := by
  induction l with
  | nil => simp [sortPts]
  | cons p rest ih => exact insertPt_pairwise p (sortPts rest) ih

/-- Spread over pairs of a sorted point list never writes at an index at or
below the head point's index. -/
theorem spreadBetween_getD_le_head (a : Nat × ℚ) (pts : List (Nat × ℚ))
    (hs : (a :: pts).Pairwise (fun p q => p.1 ≤ q.1)) (l : List Laid)
    (j : Nat) (hj : j ≤ a.1) :
    (spreadBetweenAnchors l (a :: pts)).getD j dLaid = l.getD j dLaid := by
  induction pts generalizing a l with
  | nil => rfl
  | cons b rest ih =>
      show (spreadBetweenAnchors (spreadSegment l a.1 a.2 b.1 b.2) (b :: rest)).getD
          j dLaid = l.getD j dLaid
      have hab : a.1 ≤ b.1 :=
        (List.pairwise_cons.mp hs).1 b (List.mem_cons_self b rest)
      rw [ih b (List.pairwise_cons.mp hs).2 _ (hj.trans hab)]
      exact spreadSegment_getD_out l a.1 a.2 b.1 b.2 j (Or.inl hj)

/-- Spread between anchors never changes the position at any anchored
index. -/
theorem spreadBetween_getD_anchored (pts : List (Nat × ℚ))
    (hs : pts.Pairwise (fun p q => p.1 ≤ q.1)) (l : List Laid) (j : Nat)
    (hj : j ∈ pts.map Prod.fst) :
    (spreadBetweenAnchors l pts).getD j dLaid = l.getD j dLaid := by
  induction pts generalizing l with
  | nil => simp at hj
  | cons a pts' ih =>
      cases pts' with
      | nil => rfl
      | cons b rest =>
          show (spreadBetweenAnchors (spreadSegment l a.1 a.2 b.1 b.2)
            (b :: rest)).getD j dLaid = l.getD j dLaid
          rcases List.mem_map.mp hj with ⟨r, hr, hrj⟩
          rcases List.mem_cons.mp hr with rfl | hr'
          · -- j is the head's index
            have hab : r.1 ≤ b.1 :=
              (List.pairwise_cons.mp hs).1 b (List.mem_cons_self b rest)
            rw [spreadBetween_getD_le_head b rest
              (List.pairwise_cons.mp hs).2 _ j (hrj ▸ hab)]
            exact spreadSegment_getD_out l r.1 r.2 b.1 b.2 j (Or.inl hrj.ge)
          · -- j belongs to the tail's indices
            have hbj : b.1 ≤ j := by
              rcases List.mem_cons.mp hr' with rfl | hr''
              · exact hrj.le
              · exact hrj ▸ ((List.pairwise_cons.mp
                  (List.pairwise_cons.mp hs).2).1 r hr'')
            rw [ih (List.pairwise_cons.mp hs).2
              (spreadSegment l a.1 a.2 b.1 b.2)
              (List.mem_map.mpr ⟨r, hr', hrj⟩)]
            exact spreadSegment_getD_out l a.1 a.2 b.1 b.2 j (Or.inr hbj)

/-- The forward pass only increases positions and never changes tokens. -/
theorem sweepGo_getD (prev : Laid) (l : List Laid) (j : Nat) :
    ((sweepGo prev l).getD j dLaid).1 = (l.getD j dLaid).1 ∧
      (l.getD j dLaid).2 ≤ ((sweepGo prev l).getD j dLaid).2 := by
  induction l generalizing prev j with
  | nil => exact ⟨rfl, le_refl _⟩
  | cons cur rest ih =>
      cases j with
      | zero =>
          simp only [sweepGo, List.getD_cons_zero]
          by_cases h : cur.2 < prev.2 + estWidthOfToken prev.1 + gapPx
          · simp only [h, if_pos]
            exact ⟨by trivial, h.le⟩
          · simp only [h, if_neg, not_false_iff]
            exact ⟨by trivial, le_refl _⟩
      | succ n =>
          simp only [sweepGo, List.getD_cons_succ]
          by_cases h : cur.2 < prev.2 + estWidthOfToken prev.1 + gapPx <;>
            simp only [h, if_pos, if_neg, not_false_iff] <;> exact ih _ n

/-- The forward pass keeps the head (index 0) untouched. -/
theorem sweep_getD_zero (l : List Laid) :
    (sweep l).getD 0 dLaid = l.getD 0 dLaid := by
  cases l with
  | nil => rfl
  | cons p rest => rfl

theorem sweep_getD (l : List Laid) (j : Nat) :
    ((sweep l).getD j dLaid).1 = (l.getD j dLaid).1 ∧
      (l.getD j dLaid).2 ≤ ((sweep l).getD j dLaid).2 := by
  cases l with
  | nil => exact ⟨rfl, le_refl _⟩
  | cons p rest =>
      cases j with
      | zero => exact ⟨rfl, le_refl _⟩
      | succ n =>
          simp only [sweep, List.getD_cons_succ]
          exact sweepGo_getD p rest n

/-- Hyphen centering never touches an entry whose token is a word. -/
theorem hyphenCenterGo_getD_word (prev : Laid) (l : List Laid) (j : Nat)
    (hw : (l.getD j dLaid).1.isWord = true) :
    (hyphenCenterGo prev l).getD j dLaid = l.getD j dLaid := by
  induction l generalizing prev j with
  | nil => rfl
  | cons cur rest ih =>
      cases rest with
      | nil => simp [hyphenCenterGo]
      | cons next more =>
          cases j with
          | zero =>
              simp only [List.getD_cons_zero] at hw
              simp only [hyphenCenterGo]
              have : cur.1.isHyphen = false := by
                cases hc : cur.1 with
                | word t ci => rfl
                | hyphen ci => rw [hc] at hw; simp [LyricToken.isWord] at hw
              simp [this]
          | succ n =>
              simp only [List.getD_cons_succ] at hw
              simp only [hyphenCenterGo]
              by_cases hcond :
                  (cur.1.isHyphen && prev.1.isWord && next.1.isWord) = true <;>
                simp only [hcond, if_pos, if_neg, not_false_iff,
                  List.getD_cons_succ] <;>
              exact ih _ n hw

theorem hyphenCenter_getD_word (l : List Laid) (j : Nat)
    (hw : (l.getD j dLaid).1.isWord = true) :
    (hyphenCenter l).getD j dLaid = l.getD j dLaid := by
  cases l with
  | nil => rfl
  | cons p rest =>
      cases j with
      | zero => rfl
      | succ n =>
          simp only [hyphenCenter, List.getD_cons_succ]
          exact hyphenCenterGo_getD_word p rest n
            (by simpa using hw)

theorem linearFlow_length (ts : List LyricToken) (c : ℚ) :
    (linearFlow ts c).length = ts.length := by
  induction ts generalizing c with
  | nil => rfl
  | cons t rest ih => simp [linearFlow, ih]

theorem linearFlow_getD_fst (ts : List LyricToken) (c : ℚ) (j : Nat)
    (hj : j < ts.length) :
    ((linearFlow ts c).getD j dLaid).1 = ts.getD j dLaid.1 := by
  induction ts generalizing c j with
  | nil => simp at hj
  | cons t rest ih =>
      cases j with
      | zero => rfl
      | succ n =>
          simp only [linearFlow, List.getD_cons_succ]
          exact ih _ n (by simpa using hj)

/-- Anchored positions under the pixel solver: snapping fixes every anchored
token at its resolved anchor x; even-spread and hyphen centering never move
it; the forward non-overlap pass can only push it rightward, and cannot reach
the first token at all. -/
theorem layout_anchored_core (tokens : List LyricToken)
    (anchors : List LyricAnchor) (ssc sb subdiv w : ℚ) (i : Nat) (ax : ℚ)
    (hnodup : ((anchorPoints tokens anchors ssc sb subdiv w).map
      Prod.fst).Nodup)
    (hmem : (i, ax) ∈ anchorPoints tokens anchors ssc sb subdiv w) :
    ax ≤ ((layoutOnlyBetweenAnchors tokens anchors ssc sb subdiv w).getD i
      dLaid).2 ∧
    (i = 0 → ((layoutOnlyBetweenAnchors tokens anchors ssc sb subdiv w).getD i
      dLaid).2 = ax) := by
  set pts := anchorPoints tokens anchors ssc sb subdiv w with hpts
  have hlen : 1 ≤ pts.length := by
    cases hp : pts with
    | nil => rw [hp] at hmem; simp at hmem
    | cons q rest => simp [hp]
  -- the anchored token is a word token at a valid index
  rcases anchorPoints_spec tokens anchors ssc sb subdiv w (i, ax) hmem with
    ⟨a, _, hfind, _⟩
  have hspec := findIdx?_some_spec _ tokens i dLaid.1 hfind
  have hilen : i < tokens.length := hspec.1
  have hword : (tokens.getD i dLaid.1).isWord = true := by
    have := hspec.2
    simp only [Bool.and_eq_true] at this
    exact this.1
  -- the sorted points project to a nondecreasing index sequence
  have hsorted : pts.Pairwise (fun p q : Nat × ℚ => p.1 ≤ q.1) := by
    have h1 : pts.Pairwise ptLE := by
      rw [hpts]
      unfold anchorPoints
      exact sortPts_pairwise _
    exact h1.imp (fun hpq => ptLE_fst _ _ hpq)
  have hinpts : i ∈ pts.map Prod.fst := List.mem_map_of_mem Prod.fst hmem
  -- the value after snapping and spreading
  have hflow_len : (linearFlow tokens 0).length = tokens.length :=
    linearFlow_length tokens 0
  have hsnap : (snapAnchors (linearFlow tokens 0) pts).getD i dLaid =
      (tokens.getD i dLaid.1, ax) := by
    rw [snapAnchors_getD_mem _ pts i ax hmem hnodup (by rw [hflow_len]; exact hilen)]
    rw [linearFlow_getD_fst tokens 0 i hilen]
  have hspread : (spreadBetweenAnchors (snapAnchors (linearFlow tokens 0) pts)
      pts).getD i dLaid = (tokens.getD i dLaid.1, ax) := by
    rw [spreadBetween_getD_anchored pts hsorted _ i hinpts, hsnap]
  -- unfold the solver's anchored branch
  have hbranch : layoutOnlyBetweenAnchors tokens anchors ssc sb subdiv w =
      hyphenCenter (sweep (spreadBetweenAnchors
        (snapAnchors (linearFlow tokens 0) pts) pts)) := by
    unfold layoutOnlyBetweenAnchors
    rw [← hpts]
    simp [hlen]
  set spread := spreadBetweenAnchors (snapAnchors (linearFlow tokens 0) pts)
    pts with hspreadDef
  have hsw := sweep_getD spread i
  have hswfst : ((sweep spread).getD i dLaid).1 = tokens.getD i dLaid.1 := by
    rw [hsw.1, hspread]
  have hswword : ((sweep spread).getD i dLaid).1.isWord = true := by
    rw [hswfst]; exact hword
  have hcent : (hyphenCenter (sweep spread)).getD i dLaid =
      (sweep spread).getD i dLaid :=
    hyphenCenter_getD_word (sweep spread) i hswword
  constructor
  · rw [hbranch, hcent]
    have := hsw.2
    rw [hspread] at this
    exact this
  · intro hi
    subst hi
    rw [hbranch, hcent, sweep_getD_zero, hspread]

/-- A successful `findWordIdx` pins down the token at the found index: it is
a word with the anchor's `charIndex`. -/
theorem findWordIdx_some (tokens : List LyricToken) (ci : Nat) (i : Nat)
    (h : findWordIdx tokens ci = some i) :
    i < tokens.length ∧ (tokens.getD i dLaid.1).isWord = true ∧
      (tokens.getD i dLaid.1).charIndex = ci := by
  have hspec := findIdx?_some_spec _ tokens i dLaid.1 h
  refine ⟨hspec.1, ?_, ?_⟩
  · have := hspec.2
    simp only [Bool.and_eq_true] at this
    exact this.1
  · have := hspec.2
    simp only [Bool.and_eq_true, beq_iff_eq] at this
    exact this.2

/-- An anchor that resolves produces exactly its clamped-map point in the
pixel solver's point list. -/
theorem anchorPoint_mem_of_resolve (tokens : List LyricToken)
    (anchors : List LyricAnchor) (ssc sb subdiv w : ℚ) (a : LyricAnchor)
    (ha : a ∈ anchors) (i : Nat)
    (hfind : findWordIdx tokens a.charIndex = some i) :
    (i, qclamp ((a.cell - ssc) / subdiv) 0 sb / sb * w) ∈
      anchorPoints tokens anchors ssc sb subdiv w := by
  unfold anchorPoints
  rw [mem_sortPts]
  refine List.mem_filterMap.mpr ⟨a, ha, ?_⟩
  unfold anchorPointOfAnchor
  rw [hfind]

/-- With pairwise-distinct anchor `charIndex`es, the resolved (unsorted)
point indices are pairwise distinct. -/
theorem filterMap_anchorPoint_fst_nodup (tokens : List LyricToken)
    (ssc sb subdiv w : ℚ) (anchors : List LyricAnchor)
    (hdist : anchors.Pairwise (fun p q => p.charIndex ≠ q.charIndex)) :
    ((anchors.filterMap
      (anchorPointOfAnchor tokens ssc sb subdiv w)).map Prod.fst).Nodup := by
  induction anchors with
  | nil => simp
  | cons a rest ih =>
      have hdist' := (List.pairwise_cons.mp hdist).2
      have hane := (List.pairwise_cons.mp hdist).1
      rw [List.filterMap_cons]
      cases hmatch : anchorPointOfAnchor tokens ssc sb subdiv w a with
      | none => simpa using ih hdist'
      | some p =>
          simp only [List.map_cons, List.nodup_cons]
          refine ⟨?_, ih hdist'⟩
          intro hmem
          rcases List.mem_map.mp hmem with ⟨q, hq, hqp⟩
          rcases List.mem_filterMap.mp hq with ⟨b, hb, hbq⟩
          -- both a and b resolve to the same token index, so they share
          -- the token's charIndex
          have hafind : findWordIdx tokens a.charIndex = some p.1 := by
            unfold anchorPointOfAnchor at hmatch
            cases hf : findWordIdx tokens a.charIndex with
            | none => rw [hf] at hmatch; simp at hmatch
            | some j =>
                rw [hf] at hmatch
                simp only [Option.some_inj] at hmatch
                rw [← hmatch]
          have hbfind : findWordIdx tokens b.charIndex = some p.1 := by
            unfold anchorPointOfAnchor at hbq
            cases hf : findWordIdx tokens b.charIndex with
            | none => rw [hf] at hbq; simp at hbq
            | some j =>
                rw [hf] at hbq
                simp only [Option.some_inj] at hbq
                rw [← hqp, ← hbq]
          have ha' := findWordIdx_some tokens a.charIndex p.1 hafind
          have hb' := findWordIdx_some tokens b.charIndex p.1 hbfind
          exact hane b hb (ha'.2.2 ▸ hb'.2.2 ▸ rfl)

/-- Sorted version: distinct anchor `charIndex`es give distinct anchored
token indices. -/
theorem anchorPoints_fst_nodup (tokens : List LyricToken)
    (anchors : List LyricAnchor) (ssc sb subdiv w : ℚ)
    (hdist : anchors.Pairwise (fun p q => p.charIndex ≠ q.charIndex)) :
    ((anchorPoints tokens anchors ssc sb subdiv w).map Prod.fst).Nodup := by
  have hperm : (anchorPoints tokens anchors ssc sb subdiv w).Perm
      (anchors.filterMap (anchorPointOfAnchor tokens ssc sb subdiv w)) := by
    unfold anchorPoints
    exact sortPts_perm _
  exact ((hperm.map Prod.fst).nodup_iff).mpr
    (filterMap_anchorPoint_fst_nodup tokens ssc sb subdiv w anchors hdist)

/-! ## Partition machinery: what happens to the token sequence through
chunking, ownership enforcement and overflow reflow -/

theorem chunkEnd_ge (tokens : List LyricToken) (W : ℚ) (ptr : Nat)
    (reqMax : Int) : ptr ≤ chunkEnd tokens W ptr reqMax := by
  unfold chunkEnd
  dsimp only
  repeat' split
  all_goals omega

/-- Concatenating contiguous slices `[ptr, e₁) [e₁, e₂) …` of `tokens` gives
a contiguous slice `[ptr, n)`. -/
theorem chunkRangesGo_join (tokens : List LyricToken) (W : ℚ)
    (reqMaxs : List Int) (ptr : Nat) :
    ∃ n, ptr ≤ n ∧
      ((chunkRangesGo tokens W reqMaxs ptr).map
        (fun r => (tokens.take r.2).drop r.1)).flatten =
        (tokens.take n).drop ptr := by
  induction reqMaxs generalizing ptr with
  | nil =>
      exact ⟨ptr, le_refl _, by simp [chunkRangesGo]⟩
  | cons reqMax rest ih =>
      by_cases hptr : tokens.length ≤ ptr
      · rcases ih ptr with ⟨n, hn, hjoin⟩
        refine ⟨n, hn, ?_⟩
        simp only [chunkRangesGo, hptr, if_pos, List.map_cons, List.flatten_cons]
        rw [hjoin]
        simp
      · rcases ih (chunkEnd tokens W ptr reqMax) with ⟨n, hn, hjoin⟩
        have he := chunkEnd_ge tokens W ptr reqMax
        refine ⟨n, he.trans hn, ?_⟩
        simp only [chunkRangesGo, hptr, if_neg, not_false_iff, List.map_cons,
          List.flatten_cons]
        rw [hjoin]
        rw [List.drop_take, List.drop_take]
        have hdd : List.drop (chunkEnd tokens W ptr reqMax) tokens =
            List.drop (chunkEnd tokens W ptr reqMax - ptr)
              (List.drop ptr tokens) := by
          rw [List.drop_drop]
          congr 1
          omega
        rw [hdd, ← List.take_add, List.drop_take]
        congr 1
        omega

/-- The chunker's output concatenates to a prefix of the token sequence
(everything up to where the width-fill cursor stopped; tokens beyond it are
not in any chunk). -/
theorem chunkTokensForwardOnly_join (tokens : List LyricToken)
    (anchors : List LyricAnchor) (systems : List SysWin) (W : ℚ) :
    ∃ n, (chunkTokensForwardOnly tokens anchors systems W).flatten =
      tokens.take n := by
  unfold chunkTokensForwardOnly
  rcases chunkRangesGo_join tokens W
    (systems.map (requiredMaxForWin tokens anchors)) 0 with ⟨n, _, hjoin⟩
  exact ⟨n, by simpa using hjoin⟩

/-- Prepending a batch onto the chunk at index `s` permutes the flattened
sequence by moving the batch to the front. -/
theorem prepend_at_perm {α : Type} (rest : List (List α)) (s : Nat)
    (m : List α) (hs : s < rest.length) :
    ((rest.set s (m ++ rest.getD s [])).flatten).Perm (m ++ rest.flatten) := by
  induction rest generalizing s with
  | nil => simp at hs
  | cons y tail ih =>
      cases s with
      | zero => simp
      | succ s' =>
          simp only [List.set_cons_succ, List.getD_cons_succ,
            List.flatten_cons]
          have hperm := ih s' (by simpa using hs)
          have h1 : (y ++ (tail.set s' (m ++ tail.getD s' [])).flatten).Perm
              (y ++ (m ++ tail.flatten)) := hperm.append_left y
          have h3 : (y ++ (m ++ tail.flatten)).Perm
              (m ++ (y ++ tail.flatten)) := by
            rw [← List.append_assoc, ← List.append_assoc]
            exact List.perm_append_comm.append_right _
          exact h1.trans h3

/-- Moving the tail of chunk `c` (from position `k`) to the front of a later
chunk `s` permutes the flattened sequence. -/
theorem move_tail_perm {α : Type} (ch : List (List α)) (c s k : Nat)
    (hcs : c < s) (hs : s < ch.length) :
    (((ch.set c ((ch.getD c []).take k)).set s
      (((ch.getD c []).drop k) ++
        ((ch.set c ((ch.getD c []).take k)).getD s []))).flatten).Perm
      ch.flatten := by
  induction ch generalizing c s with
  | nil => simp at hs
  | cons x rest ih =>
      cases c with
      | zero =>
          cases s with
          | zero => omega
          | succ s' =>
              simp only [List.set_cons_zero, List.set_cons_succ,
                List.getD_cons_zero, List.getD_cons_succ, List.flatten_cons]
              have hpre := prepend_at_perm rest s' (x.drop k)
                (by simpa using hs)
              have h1 : (x.take k ++
                  (rest.set s' (x.drop k ++ rest.getD s' [])).flatten).Perm
                  (x.take k ++ (x.drop k ++ rest.flatten)) :=
                hpre.append_left _
              have h2 : x.take k ++ (x.drop k ++ rest.flatten) =
                  x ++ rest.flatten := by
                rw [← List.append_assoc, List.take_append_drop]
              exact h1.trans (h2 ▸ List.Perm.refl _)
      | succ c' =>
          cases s with
          | zero => omega
          | succ s' =>
              simp only [List.set_cons_succ, List.getD_cons_succ,
                List.flatten_cons]
              exact (ih c' s' (by omega) (by simpa using hs)).append_left x

theorem ownershipStep_length (chunks : List (List LyricToken)) (s : Nat)
    (a : LyricAnchor) : (ownershipStep chunks s a).length = chunks.length := by
  unfold ownershipStep
  cases h : findTokenInChunks chunks a.charIndex with
  | none => rfl
  | some loc =>
      dsimp only
      repeat' split
      all_goals simp [List.length_set]

/-- The located system index is always in range. -/
theorem findTokenGo_lt (ci : Nat) (chunks : List (List LyricToken))
    (s0 : Nat) (s idx : Nat) (h : findTokenGo ci chunks s0 = some (s, idx)) :
    s0 ≤ s ∧ s < s0 + chunks.length := by
  induction chunks generalizing s0 with
  | nil => simp [findTokenGo] at h
  | cons c rest ih =>
      unfold findTokenGo at h
      cases hf : c.findIdx? (fun t => t.isWord && t.charIndex == ci) with
      | some i =>
          rw [hf] at h
          simp only [Option.some_inj, Prod.mk.injEq] at h
          obtain ⟨rfl, rfl⟩ := h
          simp only [List.length_cons]
          omega
      | none =>
          rw [hf] at h
          rcases ih (s0 + 1) h with ⟨h1, h2⟩
          constructor <;> [omega; (simp only [List.length_cons]; omega)]

/-- One ownership step permutes the flattened chunk contents. -/
theorem ownershipStep_perm (chunks : List (List LyricToken)) (s : Nat)
    (a : LyricAnchor) (hs : s < chunks.length) :
    ((ownershipStep chunks s a).flatten).Perm chunks.flatten := by
  unfold ownershipStep
  cases h : findTokenInChunks chunks a.charIndex with
  | none => exact List.Perm.refl _
  | some loc =>
      obtain ⟨curSys, curIdx⟩ := loc
      dsimp only
      by_cases h1 : curSys = s
      · simp only [h1, if_pos]
        exact List.Perm.refl _
      · simp only [h1, if_neg, not_false_iff]
        by_cases h2 : s < curSys
        · simp only [h2, if_pos]
          exact List.Perm.refl _
        · simp only [h2, if_neg, not_false_iff]
          split
          · exact List.Perm.refl _
          · exact move_tail_perm chunks curSys s curIdx (by omega) hs

/-- Ownership enforcement permutes the flattened chunk contents and keeps
the number of systems. -/
theorem enforce_perm_length (chunks : List (List LyricToken))
    (anchorsBySystem : List (List LyricAnchor)) :
    ((enforceAnchoredTokenOwnership chunks anchorsBySystem).flatten).Perm
        chunks.flatten ∧
      (enforceAnchoredTokenOwnership chunks anchorsBySystem).length =
        chunks.length := by
  unfold enforceAnchoredTokenOwnership
  refine foldl_preserve_mem
    (fun m => (m.flatten).Perm chunks.flatten ∧ m.length = chunks.length)
    _ _ ?_ chunks ⟨List.Perm.refl _, rfl⟩
  intro m s hsmem ⟨hp, hl⟩
  have hslt : s < chunks.length := List.mem_range.mp hsmem
  refine foldl_preserve
    (fun m2 => (m2.flatten).Perm chunks.flatten ∧ m2.length = chunks.length)
    _ ?_ _ m ⟨hp, hl⟩
  intro m2 a ⟨hp2, hl2⟩
  exact ⟨(ownershipStep_perm m2 s a (by omega)).trans hp2,
    (ownershipStep_length m2 s a).trans hl2⟩

/-- The bounded overflow loop only redistributes the two chunks it works on:
their concatenation is unchanged. -/
theorem overflowGuardGo_append (anchorsS : List LyricAnchor) (win : SysWin)
    (subdivision W : ℚ) (reqMaxLocal : Int) (fuel : Nat)
    (cs next : List LyricToken) :
    (overflowGuardGo anchorsS win subdivision W reqMaxLocal fuel cs next).1 ++
      (overflowGuardGo anchorsS win subdivision W reqMaxLocal fuel cs next).2 =
      cs ++ next := by
  induction fuel generalizing cs next with
  | zero => rfl
  | succ fuel ih =>
      cases hov : findOverflowIdx (layoutOnlyBetweenAnchors cs anchorsS
        win.startCell ((win.endCell - win.startCell) / subdivision)
        subdivision W) W with
      | none => simp only [overflowGuardGo, hov]
      | some i =>
          simp only [overflowGuardGo, hov]
          split
          · rfl
          · split
            · rfl
            · rw [ih, ← List.append_assoc, List.take_append_drop]

/-- Writing a redistribution of chunks `s` and `s + 1` back in place keeps
the flattened sequence equal. -/
theorem set_pair_flatten {α : Type} (ch : List (List α)) (s : Nat)
    (c' n' : List α) (hs : s + 1 < ch.length)
    (h : c' ++ n' = ch.getD s [] ++ ch.getD (s + 1) []) :
    (((ch.set s c').set (s + 1) n')).flatten = ch.flatten := by
  induction ch generalizing s with
  | nil => simp at hs
  | cons x rest ih =>
      cases s with
      | zero =>
          cases rest with
          | nil => simp at hs
          | cons y tail =>
              simp only [List.getD_cons_zero, List.getD_cons_succ] at h
              simp only [List.set_cons_zero, List.set_cons_succ,
                List.flatten_cons]
              rw [← List.append_assoc, h, List.append_assoc]
      | succ s' =>
          simp only [List.set_cons_succ, List.flatten_cons]
          rw [ih s' (by simpa using hs) (by simpa using h)]

theorem overflowStepAt_flatten (absys : List (List LyricAnchor))
    (timing : List SysWin) (subdivision W : ℚ) (s : Nat)
    (chunks : List (List LyricToken)) (hs : s + 1 < chunks.length) :
    (overflowStepAt absys timing subdivision W s chunks).flatten =
      chunks.flatten := by
  unfold overflowStepAt
  dsimp only
  split
  · rfl
  · exact set_pair_flatten chunks s _ _ hs
      (overflowGuardGo_append _ _ _ _ _ _ _ _)

theorem overflowStepAt_length (absys : List (List LyricAnchor))
    (timing : List SysWin) (subdivision W : ℚ) (s : Nat)
    (chunks : List (List LyricToken)) :
    (overflowStepAt absys timing subdivision W s chunks).length =
      chunks.length := by
  unfold overflowStepAt
  dsimp only
  split
  · rfl
  · simp [List.length_set]

theorem overflowLoop_flatten (absys : List (List LyricAnchor))
    (timing : List SysWin) (subdivision W : ℚ) (fuel s : Nat)
    (chunks : List (List LyricToken)) :
    (overflowLoop absys timing subdivision W fuel s chunks).flatten =
      chunks.flatten := by
  induction fuel generalizing s chunks with
  | zero => rfl
  | succ fuel ih =>
      unfold overflowLoop
      by_cases h : chunks.length ≤ s + 1
      · simp [h]
      · simp only [h, if_neg, not_false_iff]
        rw [ih]
        exact overflowStepAt_flatten absys timing subdivision W s chunks
          (by omega)

/-- Full reflow (ownership enforcement plus overflow pushes) permutes the
flattened chunk contents; in particular it never drops or duplicates a
token. -/
theorem reflow_flatten_perm (initialChunks : List (List LyricToken))
    (absys : List (List LyricAnchor)) (timing : List SysWin)
    (subdivision W : ℚ) :
    ((reflowOverflowAcrossSystems initialChunks absys timing subdivision
      W).flatten).Perm initialChunks.flatten := by
  unfold reflowOverflowAcrossSystems
  dsimp only
  rw [overflowLoop_flatten]
  exact (enforce_perm_length initialChunks absys).1

/-! ## Ownership of the single-anchor case: counting machinery -/

/-- The match predicate tying a token to an anchor `charIndex`. -/
def matchesCI (ci : Nat) (t : LyricToken) : Bool :=
  t.isWord && t.charIndex == ci

/-- A list with exactly one match decomposes around that match. -/
theorem countP_eq_one_decomp {α : Type} (p : α → Bool) (l : List α)
    (h : l.countP p = 1) :
    ∃ pre t post, l = pre ++ t :: post ∧ p t = true ∧
      pre.countP p = 0 ∧ post.countP p = 0 := by
  induction l with
  | nil => simp at h
  | cons x xs ih =>
      rw [List.countP_cons] at h
      by_cases hx : p x
      · refine ⟨[], x, xs, by simp, hx, by simp, ?_⟩
        simpa [hx] using h
      · have hxs : xs.countP p = 1 := by simpa [hx] using h
        rcases ih hxs with ⟨pre, t, post, hdec, hpt, hpre, hpost⟩
        exact ⟨x :: pre, t, post, by simp [hdec],
          hpt, by simp [List.countP_cons, hx, hpre], hpost⟩

theorem countP_zero_findIdx?_none {α : Type} (p : α → Bool) (l : List α)
    (h : l.countP p = 0) : l.findIdx? p = none := by
  induction l with
  | nil => rfl
  | cons x xs ih =>
      rw [List.countP_cons] at h
      by_cases hx : p x
      · simp [hx] at h
      · rw [List.findIdx?_cons, if_neg (by simpa using hx),
          List.findIdx?_succ, ih (by simpa [hx] using h)]
        rfl

/-- The fold that builds `tokenIndexByCharIndex` is untouched by blocks with
no matching token. -/
theorem lastWordIdx_fold_skip (ci : Nat) (l : List (Nat × LyricToken))
    (acc : Option Nat)
    (h : ∀ q ∈ l, (q.2.isWord && q.2.charIndex == ci) = false) :
    l.foldl (fun acc p =>
      if p.2.isWord && p.2.charIndex == ci then some p.1 else acc) acc =
      acc := by
  induction l generalizing acc with
  | nil => rfl
  | cons q rest ih =>
      have hq := h q (List.mem_cons_self q rest)
      simp only [List.foldl_cons, hq, Bool.false_eq_true, if_false, if_neg]
      exact ih acc (fun r hr => h r (List.mem_cons_of_mem q hr))

theorem enumFrom_append {α : Type} (l1 l2 : List α) (n : Nat) :
    (l1 ++ l2).enumFrom n = l1.enumFrom n ++ l2.enumFrom (n + l1.length) := by
  induction l1 generalizing n with
  | nil => simp
  | cons x xs ih =>
      simp only [List.cons_append, List.enumFrom, List.length_cons,
        List.append_eq]
      rw [ih (n + 1)]
      have harith : n + 1 + xs.length = n + (xs.length + 1) := by omega
      rw [harith]

/-- With exactly one matching word token, the overwriting `Map.set` lookup
returns that token's index. -/
theorem lastWordIdx_unique (ci : Nat) (pre : List LyricToken)
    (t : LyricToken) (post : List LyricToken) (hpt : matchesCI ci t = true)
    (hpre : pre.countP (matchesCI ci) = 0)
    (hpost : post.countP (matchesCI ci) = 0) :
    lastWordIdx (pre ++ t :: post) ci = some pre.length := by
  have hskip : ∀ (l : List LyricToken) (n : Nat) (acc : Option Nat),
      l.countP (matchesCI ci) = 0 →
      (l.enumFrom n).foldl (fun acc p =>
        if p.2.isWord && p.2.charIndex == ci then some p.1 else acc) acc =
        acc := by
    intro l n acc hl
    refine lastWordIdx_fold_skip ci (l.enumFrom n) acc ?_
    intro q hq
    rcases List.mk_mem_enumFrom_iff_le_and_getElem?_sub.mp
      (show (q.1, q.2) ∈ l.enumFrom n by simpa using hq) with ⟨_, hget⟩
    have hq2 : q.2 ∈ l := by
      rcases List.getElem?_eq_some_iff.mp hget with ⟨hlen, hv⟩
      exact hv ▸ List.getElem_mem hlen
    have := List.countP_eq_zero.mp hl q.2 hq2
    unfold matchesCI at this
    simpa using this
  unfold lastWordIdx
  show ((pre ++ t :: post).enumFrom 0).foldl _ none = some pre.length
  rw [enumFrom_append, List.foldl_append, hskip pre 0 none hpre]
  show ((t :: post).enumFrom (0 + pre.length)).foldl _ none = some pre.length
  simp only [List.enumFrom, List.foldl_cons]
  unfold matchesCI at hpt
  rw [if_pos hpt, hskip post _ _ hpost]
  congr 1
  omega

theorem requiredMaxForWin_single_in (tokens : List LyricToken)
    (a : LyricAnchor) (w : SysWin) (m : Nat)
    (hlw : lastWordIdx tokens a.charIndex = some m)
    (hin : w.startCell ≤ a.cell ∧ a.cell < w.endCell) :
    requiredMaxForWin tokens [a] w = (m : Int) := by
  unfold requiredMaxForWin
  simp only [List.foldl_cons, List.foldl_nil]
  rw [if_pos (by simp [hin.1, hin.2]), hlw]
  simp only [max_eq_right_iff]
  omega

theorem requiredMaxForWin_single_out (tokens : List LyricToken)
    (a : LyricAnchor) (w : SysWin)
    (hout : ¬ (w.startCell ≤ a.cell ∧ a.cell < w.endCell)) :
    requiredMaxForWin tokens [a] w = -1 := by
  unfold requiredMaxForWin
  simp only [List.foldl_cons, List.foldl_nil]
  rw [if_neg]
  simp only [Bool.and_eq_true, decide_eq_true_eq]
  exact hout

/-- When the requirement list has value `m` at position `s` and the cursor is
still at or before `m`, one of the first `s + 1` ranges covers `m`. -/
theorem chunkRangesGo_covers (tokens : List LyricToken) (W : ℚ) :
    ∀ (reqMaxs : List Int) (ptr s m : Nat), s < reqMaxs.length →
    reqMaxs.getD s (-1) = (m : Int) → m < tokens.length → ptr ≤ m →
    ∃ c, c ≤ s ∧
      ((chunkRangesGo tokens W reqMaxs ptr).getD c (0, 0)).1 ≤ m ∧
      m < ((chunkRangesGo tokens W reqMaxs ptr).getD c (0, 0)).2 := by
  intro reqMaxs
  induction reqMaxs with
  | nil => intro ptr s m hs; simp at hs
  | cons r rest ih =>
      intro ptr s m hs hr hm hptr
      cases s with
      | zero =>
          simp only [List.getD_cons_zero] at hr
          have hptrlen : ¬ tokens.length ≤ ptr := by omega
          have hend : m < chunkEnd tokens W ptr r := by
            unfold chunkEnd
            dsimp only
            have hple : (ptr : Int) ≤ r := by omega
            rw [if_pos hple]
            have : r.toNat + 1 = m + 1 := by omega
            rw [this]
            have hmin : min (m + 1) tokens.length = m + 1 := by omega
            rw [hmin]
            repeat' split
            all_goals omega
          refine ⟨0, le_refl _, ?_, ?_⟩ <;>
            simp [chunkRangesGo, hptrlen, hptr, hend]
      | succ s' =>
          simp only [List.getD_cons_succ] at hr
          by_cases hptrlen : tokens.length ≤ ptr
          · rcases ih ptr s' m (by simpa using hs) hr hm hptr with
              ⟨c, hc, h1, h2⟩
            refine ⟨c + 1, by omega, ?_, ?_⟩
            · simpa [chunkRangesGo, hptrlen] using h1
            · simpa [chunkRangesGo, hptrlen] using h2
          · set e := chunkEnd tokens W ptr r with he
            by_cases hme : m < e
            · refine ⟨0, by omega, ?_, ?_⟩ <;>
                simp [chunkRangesGo, hptrlen, hptr, hme]
            · rcases ih e s' m (by simpa using hs) hr hm (by omega) with
                ⟨c, hc, h1, h2⟩
              refine ⟨c + 1, by omega, ?_, ?_⟩
              · simpa [chunkRangesGo, hptrlen, ← he] using h1
              · simpa [chunkRangesGo, hptrlen, ← he] using h2

theorem chunkRangesGo_length (tokens : List LyricToken) (W : ℚ)
    (reqMaxs : List Int) (ptr : Nat) :
    (chunkRangesGo tokens W reqMaxs ptr).length = reqMaxs.length := by
  induction reqMaxs generalizing ptr with
  | nil => rfl
  | cons r rest ih =>
      unfold chunkRangesGo
      split <;> simp [ih]

theorem getD_set_ne {α : Type} (l : List α) (i j : Nat) (x d : α)
    (h : j ≠ i) : (l.set i x).getD j d = l.getD j d := by
  induction l generalizing i j with
  | nil => simp
  | cons y rest ih =>
      cases i with
      | zero =>
          cases j with
          | zero => exact absurd rfl h
          | succ m => simp
      | succ n =>
          cases j with
          | zero => simp
          | succ m =>
              simp only [List.set_cons_succ, List.getD_cons_succ]
              exact ih n m (fun hh => h (by rw [hh]))

theorem getD_set_self {α : Type} (l : List α) (i : Nat) (x d : α)
    (h : i < l.length) : (l.set i x).getD i d = x := by
  induction l generalizing i with
  | nil => simp at h
  | cons y rest ih =>
      cases i with
      | zero => simp
      | succ n =>
          simp only [List.set_cons_succ, List.getD_cons_succ]
          exact ih n (by simpa using h)

theorem getD_map_lt {α β : Type} (f : α → β) (l : List α) (i : Nat)
    (hi : i < l.length) (d : β) (d' : α) :
    (l.map f).getD i d = f (l.getD i d') := by
  induction l generalizing i with
  | nil => simp at hi
  | cons y rest ih =>
      cases i with
      | zero => simp
      | succ n =>
          simp only [List.map_cons, List.getD_cons_succ]
          exact ih n (by simpa using hi)

theorem countP_getD_le_flatten {α : Type} (p : α → Bool)
    (ch : List (List α)) (c : Nat) :
    (ch.getD c []).countP p ≤ ch.flatten.countP p := by
  induction ch generalizing c with
  | nil => simp
  | cons x rest ih =>
      cases c with
      | zero =>
          simp only [List.getD_cons_zero, List.flatten_cons,
            List.countP_append]
          omega
      | succ c' =>
          simp only [List.getD_cons_succ, List.flatten_cons,
            List.countP_append]
          have := ih c'
          omega

/-- One chunk holding a match while the flattened whole has exactly one match
forces every other chunk to have none. -/
theorem countP_flatten_unique {α : Type} (p : α → Bool)
    (ch : List (List α)) (c : Nat) (hc : c < ch.length)
    (h1 : ch.flatten.countP p = 1) (h2 : 0 < (ch.getD c []).countP p) :
    (ch.getD c []).countP p = 1 ∧
      ∀ c', c' ≠ c → (ch.getD c' []).countP p = 0 := by
  induction ch generalizing c with
  | nil => simp at hc
  | cons x rest ih =>
      rw [List.flatten_cons, List.countP_append] at h1
      cases c with
      | zero =>
          simp only [List.getD_cons_zero] at h2 ⊢
          have hx1 : x.countP p = 1 := by omega
          have hrest : rest.flatten.countP p = 0 := by omega
          refine ⟨hx1, ?_⟩
          intro c' hc'
          cases c' with
          | zero => exact absurd rfl hc'
          | succ k =>
              simp only [List.getD_cons_succ]
              have := countP_getD_le_flatten p rest k
              omega
      | succ c' =>
          simp only [List.getD_cons_succ] at h2 ⊢
          have hle := countP_getD_le_flatten p rest c'
          have hx0 : x.countP p = 0 := by omega
          have hr1 : rest.flatten.countP p = 1 := by omega
          rcases ih c' (by simpa using hc) hr1 h2 with ⟨ha, hb⟩
          refine ⟨ha, ?_⟩
          intro c'' hc''
          cases c'' with
          | zero => simpa using hx0
          | succ k =>
              simp only [List.getD_cons_succ]
              exact hb k (fun hh => hc'' (by rw [hh]))

/-- `findToken` locates the unique chunk holding the matching token. -/
theorem findTokenGo_at (ci : Nat) (ch : List (List LyricToken)) :
    ∀ (s0 c : Nat), c < ch.length →
    (∀ c' < c, (ch.getD c' []).countP (matchesCI ci) = 0) →
    0 < (ch.getD c []).countP (matchesCI ci) →
    ∃ idx, findTokenGo ci ch s0 = some (s0 + c, idx) ∧
      (ch.getD c []).findIdx? (fun t => t.isWord && t.charIndex == ci) =
        some idx := by
  induction ch with
  | nil => intro s0 c hc; simp at hc
  | cons x rest ih =>
      intro s0 c hc hzero hpos
      cases c with
      | zero =>
          simp only [List.getD_cons_zero] at hpos ⊢
          rcases List.countP_pos_iff.mp hpos with ⟨t, ht, hpt⟩
          have hsome := findIdx?_isSome_of_mem
            (fun t => t.isWord && t.charIndex == ci) x t ht
            (by simpa [matchesCI] using hpt)
          rcases Option.isSome_iff_exists.mp hsome with ⟨idx, hidx⟩
          refine ⟨idx, ?_, hidx⟩
          unfold findTokenGo
          rw [hidx]
          simp
      | succ c' =>
          have hx0 : x.countP (matchesCI ci) = 0 := by
            simpa using hzero 0 (Nat.succ_pos c')
          have hnone : x.findIdx? (fun t => t.isWord && t.charIndex == ci) =
              none := countP_zero_findIdx?_none _ x hx0
          simp only [List.getD_cons_succ] at hpos ⊢
          have hzero' : ∀ k, k < c' →
              (rest.getD k []).countP (matchesCI ci) = 0 := by
            intro k hk
            have := hzero (k + 1) (by omega)
            simpa using this
          rcases ih (s0 + 1) c' (by simpa using hc)
            (fun k hk => hzero' k hk) hpos with ⟨idx, hfind, hfi⟩
          refine ⟨idx, ?_, hfi⟩
          unfold findTokenGo
          rw [hnone, hfind]
          have harith : s0 + 1 + c' = s0 + (c' + 1) := by omega
          rw [harith]

/-- With a single anchor owned by system `sStar`, ownership enforcement
reduces to the one ownership step at `sStar`. -/
theorem enforce_single (chunks : List (List LyricToken))
    (absys : List (List LyricAnchor)) (a : LyricAnchor) (sStar : Nat)
    (habsys : ∀ s', s' ≠ sStar → absys.getD s' [] = [])
    (hstar : absys.getD sStar [] = [a]) (hlt : sStar < chunks.length) :
    enforceAnchoredTokenOwnership chunks absys =
      ownershipStep chunks sStar a := by
  unfold enforceAnchoredTokenOwnership
  have hskip : ∀ (L : List Nat) (ch : List (List LyricToken)),
      (∀ s' ∈ L, s' ≠ sStar) →
      L.foldl (fun ch2 s => (absys.getD s []).foldl
        (fun ch3 x => ownershipStep ch3 s x) ch2) ch = ch := by
    intro L
    induction L with
    | nil => intro ch _; rfl
    | cons s rest ihL =>
        intro ch hL
        simp only [List.foldl_cons]
        rw [habsys s (hL s (List.mem_cons_self s rest))]
        exact ihL ch (fun s' hs' => hL s' (List.mem_cons_of_mem s hs'))
  have hdecomp : List.range chunks.length =
      List.range' 0 sStar ++ sStar :: List.range' (sStar + 1)
        (chunks.length - sStar - 1) := by
    rw [List.range_eq_range']
    have h1 : chunks.length = (chunks.length - sStar) + sStar := by omega
    rw [h1, ← List.range'_append 0 sStar (chunks.length - sStar) 1]
    congr 1
    simp only [Nat.one_mul, Nat.zero_add]
    have h2 : chunks.length - sStar = (chunks.length - sStar - 1) + 1 := by
      omega
    rw [h2, List.range'_succ]
    have h3 : chunks.length - sStar - 1 + 1 + sStar - sStar - 1 =
        chunks.length - sStar - 1 := by omega
    rw [h3]
  rw [hdecomp, List.foldl_append]
  rw [hskip (List.range' 0 sStar) chunks ?hpre]
  case hpre =>
    intro s' hs'
    have := List.mem_range'.mp hs'
    omega
  simp only [List.foldl_cons]
  rw [hstar]
  simp only [List.foldl_cons, List.foldl_nil]
  refine hskip _ _ ?_
  intro s' hs'
  have := List.mem_range'.mp hs'
  omega

/-- Every matching position of the chunk is at or below `requiredMaxLocal`
(single-anchor case). -/
theorem requiredMaxLocal_ge (cs : List LyricToken) (a : LyricAnchor) :
    ∀ j, j < cs.length → matchesCI a.charIndex (cs.getD j (.hyphen 0)) = true →
      (j : Int) ≤ requiredMaxLocal cs [a] := by
  have hmono : ∀ (l : List (Nat × LyricToken)) (acc : Int),
      acc ≤ l.foldl (fun m p =>
        if p.2.isWord && [a].any (fun x => x.charIndex == p.2.charIndex)
        then max m (p.1 : Int) else m) acc := by
    intro l
    induction l with
    | nil => intro acc; exact le_refl _
    | cons q rest ihl =>
        intro acc
        simp only [List.foldl_cons]
        by_cases hq : (q.2.isWord &&
            [a].any (fun x => x.charIndex == q.2.charIndex)) = true
        · simp only [hq, if_pos]
          exact (le_max_left acc (q.1 : Int)).trans (ihl _)
        · simp only [hq, if_neg, not_false_iff]
          exact ihl acc
  have hfold : ∀ (l : List LyricToken) (n : Nat) (acc : Int) (j : Nat),
      j < l.length → matchesCI a.charIndex (l.getD j (.hyphen 0)) = true →
      ((n + j : Nat) : Int) ≤ (l.enumFrom n).foldl (fun m p =>
        if p.2.isWord && [a].any (fun x => x.charIndex == p.2.charIndex)
        then max m (p.1 : Int) else m) acc := by
    intro l
    induction l with
    | nil => intro n acc j hj; simp at hj
    | cons t rest ihl =>
        intro n acc j hj hmatch
        simp only [List.enumFrom, List.foldl_cons]
        cases j with
        | zero =>
            simp only [List.getD_cons_zero] at hmatch
            unfold matchesCI at hmatch
            simp only [Bool.and_eq_true, beq_iff_eq] at hmatch
            have hcond : (t.isWord &&
                [a].any (fun x => x.charIndex == t.charIndex)) = true := by
              simp [hmatch.1, hmatch.2]
            rw [if_pos hcond]
            have := hmono (rest.enumFrom (n + 1)) (max acc (n : Int))
            have h2 : ((n + 0 : Nat) : Int) ≤ max acc (n : Int) := by
              simp
            exact h2.trans this
        | succ j' =>
            simp only [List.getD_cons_succ] at hmatch
            have := ihl (n + 1) (if t.isWord &&
              [a].any (fun x => x.charIndex == t.charIndex)
              then max acc (n : Int) else acc) j' (by simpa using hj) hmatch
            have harith : ((n + (j' + 1) : Nat) : Int) =
                ((n + 1 + j' : Nat) : Int) := by
              push_cast; ring
            rw [harith]
            simpa using this
  intro j hj hmatch
  unfold requiredMaxLocal
  have := hfold cs 0 (-1) j hj hmatch
  simpa using this

theorem getD_append_length {α : Type} (pre : List α) (t : α) (post : List α)
    (d : α) : (pre ++ t :: post).getD pre.length d = t := by
  induction pre with
  | nil => rfl
  | cons x xs ih =>
      simp only [List.cons_append, List.length_cons, List.getD_cons_succ]
      exact ih

theorem getD_take {α : Type} (l : List α) (n j : Nat) (d : α) (hj : j < n) :
    (l.take n).getD j d = l.getD j d := by
  induction l generalizing n j with
  | nil => simp
  | cons x xs ih =>
      cases n with
      | zero => omega
      | succ n' =>
          cases j with
          | zero => simp
          | succ j' =>
              simp only [List.take_succ_cons, List.getD_cons_succ]
              exact ih n' j' (by omega)

theorem getD_drop {α : Type} (l : List α) (n j : Nat) (d : α)
    (hn : n ≤ l.length) : (l.drop n).getD j d = l.getD (n + j) d := by
  induction l generalizing n with
  | nil => simp
  | cons x xs ih =>
      cases n with
      | zero => simp
      | succ n' =>
          simp only [List.drop_succ_cons]
          rw [ih n' (by simpa using hn)]
          have harith : n' + 1 + j = (n' + j) + 1 := by omega
          rw [harith, List.getD_cons_succ]

theorem countP_take_add_drop {α : Type} (p : α → Bool) (l : List α)
    (n : Nat) : (l.take n).countP p + (l.drop n).countP p = l.countP p := by
  rw [← List.countP_append, List.take_append_drop]

/-- If every matching position is below `i`, the tail from `i` has no
match. -/
theorem countP_drop_zero (p : LyricToken → Bool) (l : List LyricToken)
    (i : Nat)
    (h : ∀ j, j < l.length → p (l.getD j (.hyphen 0)) = true → j < i) :
    (l.drop i).countP p = 0 := by
  by_cases hi : i ≤ l.length
  · refine List.countP_eq_zero.mpr ?_
    intro t ht hpt
    rcases List.mem_iff_getElem.mp ht with ⟨k, hk, hval⟩
    have hlen : i + k < l.length := by
      have := List.length_drop i l
      omega
    have hgd : (l.drop i).getD k (.hyphen 0) = l.getD (i + k) (.hyphen 0) :=
      getD_drop l i k _ hi
    have hval' : l.getD (i + k) (.hyphen 0) = t := by
      rw [← hgd, List.getD_eq_getElem?_getD, List.getElem?_eq_getElem hk]
      simpa using hval
    have := h (i + k) hlen (by rw [hval']; exact hpt)
    omega
  · rw [List.drop_eq_nil_of_le (by omega)]
    rfl

/-- The overflow guard loop preserves the match counts of the two chunks it
rebalances, provided every match of the first chunk is anchor-required. -/
theorem overflowGuardGo_countP (anchorsS : List LyricAnchor) (win : SysWin)
    (subdivision W : ℚ) (reqMaxLocal : Int) (p : LyricToken → Bool) :
    ∀ (fuel : Nat) (cs next : List LyricToken),
    (∀ j, j < cs.length → p (cs.getD j (.hyphen 0)) = true →
      (j : Int) ≤ reqMaxLocal) →
    (overflowGuardGo anchorsS win subdivision W reqMaxLocal fuel cs
      next).1.countP p = cs.countP p ∧
    (overflowGuardGo anchorsS win subdivision W reqMaxLocal fuel cs
      next).2.countP p = next.countP p := by
  intro fuel
  induction fuel with
  | zero => intro cs next _; exact ⟨rfl, rfl⟩
  | succ fuel ih =>
      intro cs next hfix
      cases hov : findOverflowIdx (layoutOnlyBetweenAnchors cs anchorsS
        win.startCell ((win.endCell - win.startCell) / subdivision)
        subdivision W) W with
      | none =>
          simp only [overflowGuardGo, hov]
          exact ⟨by trivial, by trivial⟩
      | some i =>
          simp only [overflowGuardGo, hov]
          split
          · exact ⟨by trivial, by trivial⟩
          · rename_i hireq
            split
            · exact ⟨by trivial, by trivial⟩
            · have hilt : reqMaxLocal < (i : Int) := by omega
              have hdrop0 : (cs.drop i).countP p = 0 := by
                refine countP_drop_zero p cs i ?_
                intro j hj hpj
                have := hfix j hj hpj
                omega
              have hfix' : ∀ j, j < (cs.take i).length →
                  p ((cs.take i).getD j (.hyphen 0)) = true →
                  (j : Int) ≤ reqMaxLocal := by
                intro j hj hpj
                have hjlen : j < cs.length := by
                  have := List.length_take i cs
                  omega
                have hji : j < i := by
                  have := List.length_take i cs
                  omega
                rw [getD_take cs i j _ hji] at hpj
                exact hfix j hjlen hpj
              rcases ih (cs.take i) (cs.drop i ++ next) hfix' with ⟨h1, h2⟩
              constructor
              · rw [h1]
                have := countP_take_add_drop p cs i
                omega
              · rw [h2, List.countP_append, hdrop0]
                omega

theorem overflowLoop_length (absys : List (List LyricAnchor))
    (timing : List SysWin) (subdivision W : ℚ) :
    ∀ (fuel s : Nat) (chunks : List (List LyricToken)),
    (overflowLoop absys timing subdivision W fuel s chunks).length =
      chunks.length := by
  intro fuel
  induction fuel with
  | zero => intro s chunks; rfl
  | succ fuel ih =>
      intro s chunks
      unfold overflowLoop
      split
      · rfl
      · rw [ih, overflowStepAt_length]

/-- The overflow pass never moves the anchor-required match out of its
system: the chunk of `sStar` keeps exactly one match throughout. -/
theorem overflowLoop_keep (absys : List (List LyricAnchor))
    (timing : List SysWin) (subdivision W : ℚ) (a : LyricAnchor)
    (sStar : Nat) (hstar : absys.getD sStar [] = [a]) :
    ∀ (fuel s : Nat) (chunks : List (List LyricToken)),
    chunks.flatten.countP (matchesCI a.charIndex) = 1 →
    (chunks.getD sStar []).countP (matchesCI a.charIndex) = 1 →
    sStar < chunks.length →
    ((overflowLoop absys timing subdivision W fuel s chunks).getD sStar
      []).countP (matchesCI a.charIndex) = 1 := by
  intro fuel
  induction fuel with
  | zero => intro s chunks _ h2 _; exact h2
  | succ fuel ih =>
      intro s chunks hflat hstarc hlen
      unfold overflowLoop
      by_cases hguard : chunks.length ≤ s + 1
      · simpa [hguard] using hstarc
      · simp only [hguard, if_neg, not_false_iff]
        have hs1 : s + 1 < chunks.length := by omega
        have hnextflat : (overflowStepAt absys timing subdivision W s
            chunks).flatten.countP (matchesCI a.charIndex) = 1 := by
          rw [overflowStepAt_flatten absys timing subdivision W s chunks hs1]
          exact hflat
        have hnextlen : sStar <
            (overflowStepAt absys timing subdivision W s chunks).length := by
          rw [overflowStepAt_length]; exact hlen
        refine ih (s + 1) _ hnextflat ?_ hnextlen
        -- the step keeps exactly one match in chunk sStar
        unfold overflowStepAt
        dsimp only
        split
        · exact hstarc
        · rename_i hcsne
          set cs := chunks.getD s [] with hcs
          set r := overflowGuardGo (absys.getD s []) (timing.getD s ⟨0, 0⟩)
            subdivision W (requiredMaxLocal cs (absys.getD s [])) 10 cs
            (chunks.getD (s + 1) []) with hr
          by_cases hss : sStar = s
          · -- the anchored system itself is rebalanced; its matches are all
            -- at or below requiredMaxLocal, so they stay
            subst hss
            rw [getD_set_ne _ (sStar + 1) sStar _ _ (by omega),
              getD_set_self _ sStar _ _ (by simpa using hlen)]
            have hfix : ∀ j, j < cs.length →
                matchesCI a.charIndex (cs.getD j (.hyphen 0)) = true →
                (j : Int) ≤ requiredMaxLocal cs (absys.getD sStar []) := by
              intro j hj hm
              rw [hstar]
              exact requiredMaxLocal_ge cs a j hj hm
            have := (overflowGuardGo_countP (absys.getD sStar [])
              (timing.getD sStar ⟨0, 0⟩) subdivision W
              (requiredMaxLocal cs (absys.getD sStar [])) (matchesCI a.charIndex)
              10 cs (chunks.getD (sStar + 1) []) hfix).1
            rw [← hr] at this
            rw [this, hcs]
            exact hstarc
          · by_cases hss1 : sStar = s + 1
            · -- the anchored system receives a prepended batch with no match
              subst hss1
              rw [getD_set_self _ (s + 1) _ _ (by rw [List.length_set]; omega)]
              have hcs0 : cs.countP (matchesCI a.charIndex) = 0 := by
                rcases countP_flatten_unique (matchesCI a.charIndex) chunks
                  (s + 1) (by omega) hflat
                  (by rw [hstarc]; exact Nat.one_pos) with ⟨_, hothers⟩
                exact hothers s (by omega)
              have hfix : ∀ j, j < cs.length →
                  matchesCI a.charIndex (cs.getD j (.hyphen 0)) = true →
                  (j : Int) ≤ requiredMaxLocal cs (absys.getD s []) := by
                intro j hj hm
                have hmem : cs.getD j (.hyphen 0) ∈ cs := by
                  rw [List.getD_eq_getElem?_getD, List.getElem?_eq_getElem hj]
                  simp only [Option.getD_some]
                  exact List.getElem_mem hj
                have := List.countP_eq_zero.mp hcs0 _ hmem
                exact absurd hm (by simpa using this)
              have := (overflowGuardGo_countP (absys.getD s [])
                (timing.getD s ⟨0, 0⟩) subdivision W
                (requiredMaxLocal cs (absys.getD s [])) (matchesCI a.charIndex)
                10 cs (chunks.getD (s + 1) []) hfix).2
              rw [← hr] at this
              rw [this]
              exact hstarc
            · rw [getD_set_ne _ (s + 1) sStar _ _ hss1,
                getD_set_ne _ s sStar _ _ hss]
              exact hstarc

theorem buildAnchorsBySystem_single (a : LyricAnchor) (systems : List SysWin)
    (sStar : Nat) (hsys : sStar < systems.length)
    (hin : (systems.getD sStar ⟨0, 0⟩).startCell ≤ a.cell ∧
      a.cell < (systems.getD sStar ⟨0, 0⟩).endCell)
    (huniq : ∀ s', s' < systems.length → s' ≠ sStar →
      ¬ ((systems.getD s' ⟨0, 0⟩).startCell ≤ a.cell ∧
        a.cell < (systems.getD s' ⟨0, 0⟩).endCell)) :
    (buildAnchorsBySystem [a] systems).getD sStar [] = [a] ∧
      ∀ s', s' ≠ sStar → (buildAnchorsBySystem [a] systems).getD s' [] = [] := by
  constructor
  · unfold buildAnchorsBySystem
    rw [getD_map_lt _ systems sStar hsys [] ⟨0, 0⟩]
    rw [List.filter_cons]
    rw [if_pos (by simp only [Bool.and_eq_true, decide_eq_true_eq]; exact hin)]
    rfl
  · intro s' hs'
    by_cases hlt : s' < systems.length
    · unfold buildAnchorsBySystem
      rw [getD_map_lt _ systems s' hlt [] ⟨0, 0⟩]
      rw [List.filter_cons]
      rw [if_neg ?hneg]
      case hneg =>
        simp only [Bool.and_eq_true, decide_eq_true_eq]
        exact huniq s' hlt hs'
      rfl
    · rw [List.getD_eq_default]
      unfold buildAnchorsBySystem
      rw [List.length_map]
      omega

/-- The chunk slice covering token index `m` contains a match whenever the
token at `m` matches. -/
theorem slice_countP_pos (P : LyricToken → Bool) (tokens : List LyricToken)
    (p e m : Nat) (hpm : p ≤ m) (hme : m < e) (hml : m < tokens.length)
    (hP : P (tokens.getD m (.hyphen 0)) = true) :
    0 < ((tokens.take e).drop p).countP P := by
  refine List.countP_pos_iff.mpr ⟨tokens.getD m (.hyphen 0), ?_, hP⟩
  have hplen : p ≤ (tokens.take e).length := by
    rw [List.length_take]
    omega
  have hgd : ((tokens.take e).drop p).getD (m - p) (.hyphen 0) =
      tokens.getD m (.hyphen 0) := by
    rw [getD_drop _ p (m - p) _ hplen]
    have : p + (m - p) = m := by omega
    rw [this, getD_take tokens e m _ hme]
  have hbound : m - p < ((tokens.take e).drop p).length := by
    rw [List.length_drop, List.length_take]
    omega
  rw [← hgd]
  rw [List.getD_eq_getElem?_getD, List.getElem?_eq_getElem hbound]
  simpa using List.getElem_mem hbound

/-- After ownership enforcement with a single anchor, the matching token
sits in the anchor's system. -/
theorem enforce_single_establish (chunks : List (List LyricToken))
    (absys : List (List LyricAnchor)) (a : LyricAnchor) (sStar c : Nat)
    (habsys : ∀ s', s' ≠ sStar → absys.getD s' [] = [])
    (hstar : absys.getD sStar [] = [a]) (hlen : sStar < chunks.length)
    (hcle : c ≤ sStar)
    (hflat : chunks.flatten.countP (matchesCI a.charIndex) = 1)
    (hposc : 0 < (chunks.getD c []).countP (matchesCI a.charIndex)) :
    (enforceAnchoredTokenOwnership chunks absys).flatten.countP
        (matchesCI a.charIndex) = 1 ∧
      ((enforceAnchoredTokenOwnership chunks absys).getD sStar []).countP
        (matchesCI a.charIndex) = 1 ∧
      (enforceAnchoredTokenOwnership chunks absys).length = chunks.length := by
  have hclen : c < chunks.length := by omega
  rcases countP_flatten_unique (matchesCI a.charIndex) chunks c hclen hflat
    hposc with ⟨hc1, hothers⟩
  have hzero : ∀ c' < c,
      (chunks.getD c' []).countP (matchesCI a.charIndex) = 0 := by
    intro c' hc'
    exact hothers c' (by omega)
  rcases findTokenGo_at a.charIndex chunks 0 c hclen hzero hposc with
    ⟨idx, hfind, hfi⟩
  have henf : enforceAnchoredTokenOwnership chunks absys =
      ownershipStep chunks sStar a :=
    enforce_single chunks absys a sStar habsys hstar hlen
  have hfind2 : findTokenInChunks chunks a.charIndex = some (c, idx) := by
    unfold findTokenInChunks
    simpa using hfind
  have hperm := ownershipStep_perm chunks sStar a hlen
  have hflatperm : (ownershipStep chunks sStar a).flatten.countP
      (matchesCI a.charIndex) = 1 := by
    rw [hperm.countP_eq]
    exact hflat
  have hsteplen : (ownershipStep chunks sStar a).length = chunks.length :=
    ownershipStep_length chunks sStar a
  refine ⟨henf ▸ hflatperm, ?_, henf ▸ hsteplen⟩
  by_cases hcs : c = sStar
  · have hunch : ownershipStep chunks sStar a = chunks := by
      unfold ownershipStep
      rw [hfind2]
      dsimp only
      rw [if_pos hcs]
    rw [henf, hunch, ← hcs]
    exact hc1
  · have hnlt : ¬ sStar < c := by omega
    have hspec := findIdx?_some_spec _ (chunks.getD c []) idx (.hyphen 0) hfi
    have hidx : idx < (chunks.getD c []).length := hspec.1
    have hmoved_ne : ((chunks.getD c []).drop idx).isEmpty = false := by
      rw [List.isEmpty_eq_false_iff_exists_mem]
      have hlennz : 0 < ((chunks.getD c []).drop idx).length := by
        rw [List.length_drop]
        omega
      rcases List.exists_mem_of_length_pos hlennz with ⟨t, ht⟩
      exact ⟨t, ht⟩
    have hstep : ownershipStep chunks sStar a =
        (chunks.set c ((chunks.getD c []).take idx)).set sStar
          ((chunks.getD c []).drop idx ++
            (chunks.set c ((chunks.getD c []).take idx)).getD sStar []) := by
      unfold ownershipStep
      rw [hfind2]
      dsimp only
      rw [if_neg hcs, if_neg hnlt, hmoved_ne]
      simp
    rw [henf, hstep]
    rw [getD_set_self _ sStar _ _
      (by rw [List.length_set]; exact hlen)]
    rw [List.countP_append]
    have hs1 : ((chunks.set c ((chunks.getD c []).take idx)).getD sStar
        []).countP (matchesCI a.charIndex) = 0 := by
      rw [getD_set_ne _ c sStar _ _ (fun h => hcs h.symm)]
      exact hothers sStar (fun h => hcs h.symm)
    have hdropP : ((chunks.getD c []).drop idx).countP
        (matchesCI a.charIndex) = 1 := by
      have hPidx : matchesCI a.charIndex
          ((chunks.getD c []).getD idx (.hyphen 0)) = true := hspec.2
      have hpos : 0 < ((chunks.getD c []).drop idx).countP
          (matchesCI a.charIndex) := by
        have hgd : ((chunks.getD c []).drop idx).getD 0 (.hyphen 0) =
            (chunks.getD c []).getD idx (.hyphen 0) := by
          rw [getD_drop _ idx 0 _ (by omega), Nat.add_zero]
        have hbound : 0 < ((chunks.getD c []).drop idx).length := by
          rw [List.length_drop]; omega
        have hmem : ((chunks.getD c []).drop idx).getD 0 (.hyphen 0) ∈
            (chunks.getD c []).drop idx := by
          cases hD : (chunks.getD c []).drop idx with
          | nil => rw [hD] at hbound; simp at hbound
          | cons x xs => simp [hD]
        exact List.countP_pos_iff.mpr ⟨_, hmem, by rw [hgd]; exact hPidx⟩
      have hsplit := countP_take_add_drop (matchesCI a.charIndex)
        (chunks.getD c []) idx
      omega
    rw [hs1, hdropP]

/-- Single-anchor ownership through the whole chunking pipeline: the unique
word token matching the anchor ends up in the anchor's system and in no
other. -/
theorem ownership_single_core (tokens : List LyricToken) (a : LyricAnchor)
    (systems : List SysWin) (subdivision W : ℚ) (sStar : Nat)
    (hsys : sStar < systems.length)
    (hin : (systems.getD sStar ⟨0, 0⟩).startCell ≤ a.cell ∧
      a.cell < (systems.getD sStar ⟨0, 0⟩).endCell)
    (huniq : ∀ s', s' < systems.length → s' ≠ sStar →
      ¬ ((systems.getD s' ⟨0, 0⟩).startCell ≤ a.cell ∧
        a.cell < (systems.getD s' ⟨0, 0⟩).endCell))
    (hcount : tokens.countP (matchesCI a.charIndex) = 1) :
    ((reflowOverflowAcrossSystems (chunkTokensForwardOnly tokens [a] systems W)
      (buildAnchorsBySystem [a] systems) systems subdivision W).getD sStar
      []).countP (matchesCI a.charIndex) = 1 ∧
    ∀ s', s' ≠ sStar →
      ((reflowOverflowAcrossSystems (chunkTokensForwardOnly tokens [a] systems
        W) (buildAnchorsBySystem [a] systems) systems subdivision W).getD s'
        []).countP (matchesCI a.charIndex) = 0 := by
  -- the unique matching token and its index
  rcases countP_eq_one_decomp (matchesCI a.charIndex) tokens hcount with
    ⟨pre, t, post, hdec, hPt, hpre, hpost⟩
  set m := pre.length with hm
  have hmlen : m < tokens.length := by
    rw [hdec, List.length_append, List.length_cons]
    omega
  have htm : tokens.getD m (.hyphen 0) = t := by
    rw [hdec, hm]
    exact getD_append_length pre t post _
  have hlw : lastWordIdx tokens a.charIndex = some m := by
    rw [hdec, hm]
    exact lastWordIdx_unique a.charIndex pre t post hPt hpre hpost
  -- the single-anchor per-system anchor lists
  rcases buildAnchorsBySystem_single a systems sStar hsys hin huniq with
    ⟨hstar, habsys⟩
  -- the requirement value at sStar is m
  have hreq : (systems.map (requiredMaxForWin tokens [a])).getD sStar (-1) =
      (m : Int) := by
    rw [getD_map_lt _ systems sStar hsys _ ⟨0, 0⟩]
    exact requiredMaxForWin_single_in tokens a _ m hlw hin
  -- the chunker covers m in a system at or before sStar
  have hreqlen : sStar < (systems.map (requiredMaxForWin tokens [a])).length :=
    by rw [List.length_map]; exact hsys
  rcases chunkRangesGo_covers tokens W
    (systems.map (requiredMaxForWin tokens [a])) 0 sStar m hreqlen hreq hmlen
    (Nat.zero_le m) with ⟨c, hcle, hcov1, hcov2⟩
  set ranges := chunkRangesGo tokens W
    (systems.map (requiredMaxForWin tokens [a])) 0 with hranges
  have hrangeslen : ranges.length = systems.length := by
    rw [hranges, chunkRangesGo_length, List.length_map]
  have hchunksdef : chunkTokensForwardOnly tokens [a] systems W =
      ranges.map (fun r => (tokens.take r.2).drop r.1) := rfl
  set chunks := chunkTokensForwardOnly tokens [a] systems W with hchunks
  have hchunkslen : chunks.length = systems.length := by
    rw [hchunksdef, List.length_map, hrangeslen]
  have hclen : c < ranges.length := by omega
  have hchunkc : chunks.getD c [] =
      (tokens.take (ranges.getD c (0, 0)).2).drop (ranges.getD c (0, 0)).1 := by
    rw [hchunksdef]
    exact getD_map_lt _ ranges c hclen [] (0, 0)
  have hposc : 0 < (chunks.getD c []).countP (matchesCI a.charIndex) := by
    rw [hchunkc]
    exact slice_countP_pos (matchesCI a.charIndex) tokens _ _ m hcov1 hcov2
      hmlen (by rw [htm]; exact hPt)
  -- the flattened chunks hold exactly one match
  rcases chunkTokensForwardOnly_join tokens [a] systems W with ⟨n, hjoin⟩
  have hflat : chunks.flatten.countP (matchesCI a.charIndex) = 1 := by
    have hub : chunks.flatten.countP (matchesCI a.charIndex) ≤ 1 := by
      rw [hchunks, hjoin]
      calc (tokens.take n).countP (matchesCI a.charIndex) ≤
          tokens.countP (matchesCI a.charIndex) :=
            (List.take_sublist n tokens).countP_le _
        _ = 1 := hcount
    have hlb := countP_getD_le_flatten (matchesCI a.charIndex) chunks c
    omega
  -- ownership enforcement places the match in sStar
  have hlenstar : sStar < chunks.length := by omega
  rcases enforce_single_establish chunks (buildAnchorsBySystem [a] systems) a
    sStar c habsys hstar hlenstar hcle hflat hposc with ⟨hEflat, hEstar, hElen⟩
  -- the overflow loop keeps it there
  set E := enforceAnchoredTokenOwnership chunks
    (buildAnchorsBySystem [a] systems) with hE
  have hreflow : reflowOverflowAcrossSystems chunks
      (buildAnchorsBySystem [a] systems) systems subdivision W =
      overflowLoop (buildAnchorsBySystem [a] systems) systems subdivision W
        E.length 0 E := rfl
  have hfinalstar := overflowLoop_keep (buildAnchorsBySystem [a] systems)
    systems subdivision W a sStar hstar E.length 0 E hEflat hEstar
    (by rw [hElen]; exact hlenstar)
  have hfinalflat : (reflowOverflowAcrossSystems chunks
      (buildAnchorsBySystem [a] systems) systems subdivision
      W).flatten.countP (matchesCI a.charIndex) = 1 := by
    rw [hreflow, overflowLoop_flatten]
    exact hEflat
  have hfinallen : sStar < (reflowOverflowAcrossSystems chunks
      (buildAnchorsBySystem [a] systems) systems subdivision W).length := by
    rw [hreflow, overflowLoop_length, hElen]
    exact hlenstar
  refine ⟨by rw [hreflow]; exact hfinalstar, ?_⟩
  intro s' hs'
  rcases countP_flatten_unique (matchesCI a.charIndex) _ sStar hfinallen
    hfinalflat (by rw [hreflow]; rw [hfinalstar]; exact Nat.one_pos) with
    ⟨_, hothers⟩
  exact hothers s' hs'

/-! ## Dead anchors: an anchor whose `charIndex` matches no word token
(e.g. one that matches a hyphen token's index) is ignored everywhere -/

/-- An anchor is dead for a token list when no word token carries its
`charIndex`. -/
def DeadFor (tokens : List LyricToken) (d : LyricAnchor) : Prop :=
  ∀ t ∈ tokens, t.isWord = true → t.charIndex ≠ d.charIndex

theorem findWordIdx_none_of_dead (tokens : List LyricToken) (d : LyricAnchor)
    (h : DeadFor tokens d) : findWordIdx tokens d.charIndex = none := by
  unfold findWordIdx
  rw [List.findIdx?_eq_none_iff]
  intro t ht
  by_cases hw : t.isWord
  · simp [hw, h t ht hw]
  · simp [hw]

theorem lastWordIdx_none_of_dead (tokens : List LyricToken) (d : LyricAnchor)
    (h : DeadFor tokens d) : lastWordIdx tokens d.charIndex = none := by
  unfold lastWordIdx
  show (tokens.enumFrom 0).foldl _ none = none
  refine lastWordIdx_fold_skip d.charIndex (tokens.enumFrom 0) none ?_
  intro q hq
  rcases List.mk_mem_enumFrom_iff_le_and_getElem?_sub.mp
    (show (q.1, q.2) ∈ tokens.enumFrom 0 by simpa using hq) with ⟨_, hget⟩
  have hq2 : q.2 ∈ tokens := by
    rcases List.getElem?_eq_some_iff.mp hget with ⟨hlen, hv⟩
    exact hv ▸ List.getElem_mem hlen
  by_cases hw : q.2.isWord
  · simp [hw, h q.2 hq2 hw]
  · simp [hw]

theorem requiredMaxForWin_cons_dead (tokens : List LyricToken)
    (d : LyricAnchor) (anchors : List LyricAnchor) (w : SysWin)
    (h : DeadFor tokens d) :
    requiredMaxForWin tokens (d :: anchors) w =
      requiredMaxForWin tokens anchors w := by
  unfold requiredMaxForWin
  rw [List.foldl_cons]
  congr 1
  split
  · rw [lastWordIdx_none_of_dead tokens d h]
  · rfl

theorem anchorPoints_cons_dead (tokens : List LyricToken) (d : LyricAnchor)
    (anchors : List LyricAnchor) (ssc sb subdiv w : ℚ)
    (h : DeadFor tokens d) :
    anchorPoints tokens (d :: anchors) ssc sb subdiv w =
      anchorPoints tokens anchors ssc sb subdiv w := by
  unfold anchorPoints
  congr 1
  rw [List.filterMap_cons]
  have : anchorPointOfAnchor tokens ssc sb subdiv w d = none := by
    unfold anchorPointOfAnchor
    rw [findWordIdx_none_of_dead tokens d h]
  rw [this]

theorem anchorPointsCells_cons_dead (tokens : List LyricToken)
    (d : LyricAnchor) (anchors : List LyricAnchor) (ssc sc : ℚ)
    (h : DeadFor tokens d) :
    anchorPointsCells tokens (d :: anchors) ssc sc =
      anchorPointsCells tokens anchors ssc sc := by
  unfold anchorPointsCells
  congr 1
  rw [List.filterMap_cons]
  rw [lastWordIdx_none_of_dead tokens d h]

/-- A dead anchor changes nothing in the forward-only chunker. -/
theorem chunk_cons_dead (tokens : List LyricToken) (d : LyricAnchor)
    (anchors : List LyricAnchor) (systems : List SysWin) (W : ℚ)
    (h : DeadFor tokens d) :
    chunkTokensForwardOnly tokens (d :: anchors) systems W =
      chunkTokensForwardOnly tokens anchors systems W := by
  unfold chunkTokensForwardOnly
  have : systems.map (requiredMaxForWin tokens (d :: anchors)) =
      systems.map (requiredMaxForWin tokens anchors) :=
    List.map_congr_left (fun w _ => requiredMaxForWin_cons_dead tokens d
      anchors w h)
  rw [this]

/-- A dead anchor changes nothing in the pixel-space solver. -/
theorem layout_cons_dead (tokens : List LyricToken) (d : LyricAnchor)
    (anchors : List LyricAnchor) (ssc sb subdiv w : ℚ)
    (h : DeadFor tokens d) :
    layoutOnlyBetweenAnchors tokens (d :: anchors) ssc sb subdiv w =
      layoutOnlyBetweenAnchors tokens anchors ssc sb subdiv w := by
  unfold layoutOnlyBetweenAnchors
  rw [anchorPoints_cons_dead tokens d anchors ssc sb subdiv w h]

/-- A dead anchor changes nothing in the cell-space solver. -/
theorem layoutCells_cons_dead (tokens : List LyricToken) (d : LyricAnchor)
    (anchors : List LyricAnchor) (ssc sc px : ℚ) (h : DeadFor tokens d) :
    layoutOnlyBetweenAnchorsInCells tokens (d :: anchors) ssc sc px =
      layoutOnlyBetweenAnchorsInCells tokens anchors ssc sc px := by
  unfold layoutOnlyBetweenAnchorsInCells
  rw [anchorPointsCells_cons_dead tokens d anchors ssc sc h]

theorem findTokenInChunks_none (ch : List (List LyricToken)) (ci : Nat)
    (h : ∀ t ∈ ch.flatten, t.isWord = true → t.charIndex ≠ ci) :
    findTokenInChunks ch ci = none := by
  unfold findTokenInChunks
  suffices hgen : ∀ s0, findTokenGo ci ch s0 = none by exact hgen 0
  induction ch with
  | nil => intro s0; rfl
  | cons c rest ih =>
      intro s0
      unfold findTokenGo
      have hcnone : c.findIdx? (fun t => t.isWord && t.charIndex == ci) =
          none := by
        rw [List.findIdx?_eq_none_iff]
        intro t ht
        have hmem : t ∈ (c :: rest).flatten := by
          rw [List.flatten_cons]
          exact List.mem_append_left _ ht
        by_cases hw : t.isWord
        · simp [hw, h t hmem hw]
        · simp [hw]
      rw [hcnone]
      exact ih (fun t ht hw => h t (by
        rw [List.flatten_cons]; exact List.mem_append_right _ ht) hw) (s0 + 1)

/-- A dead anchor triggers no ownership move. -/
theorem ownershipStep_dead (ch : List (List LyricToken)) (s : Nat)
    (d : LyricAnchor)
    (h : ∀ t ∈ ch.flatten, t.isWord = true → t.charIndex ≠ d.charIndex) :
    ownershipStep ch s d = ch := by
  unfold ownershipStep
  rw [findTokenInChunks_none ch d.charIndex h]

/-- A dead anchor changes nothing in ownership enforcement. -/
theorem enforce_cons_dead (chunks : List (List LyricToken)) (d : LyricAnchor)
    (anchors : List LyricAnchor) (systems : List SysWin)
    (h : ∀ t ∈ chunks.flatten, t.isWord = true →
      t.charIndex ≠ d.charIndex) :
    enforceAnchoredTokenOwnership chunks
        (buildAnchorsBySystem (d :: anchors) systems) =
      enforceAnchoredTokenOwnership chunks
        (buildAnchorsBySystem anchors systems) := by
  have hQstep : ∀ (ch : List (List LyricToken)) (s : Nat) (b : LyricAnchor),
      s < ch.length →
      (∀ t ∈ ch.flatten, t.isWord = true → t.charIndex ≠ d.charIndex) →
      (∀ t ∈ (ownershipStep ch s b).flatten, t.isWord = true →
        t.charIndex ≠ d.charIndex) := by
    intro ch s b hs hQ t ht
    exact hQ t ((ownershipStep_perm ch s b hs).mem_iff.mp ht)
  have hinner : ∀ (ch : List (List LyricToken)) (s : Nat)
      (l : List LyricAnchor), s < ch.length →
      (∀ t ∈ ch.flatten, t.isWord = true → t.charIndex ≠ d.charIndex) →
      (∀ t ∈ (l.foldl (fun ch2 x => ownershipStep ch2 s x) ch).flatten,
        t.isWord = true → t.charIndex ≠ d.charIndex) ∧
      (l.foldl (fun ch2 x => ownershipStep ch2 s x) ch).length = ch.length := by
    intro ch s l
    induction l generalizing ch with
    | nil => intro hs hQ; exact ⟨hQ, rfl⟩
    | cons b rest ihl =>
        intro hs hQ
        simp only [List.foldl_cons]
        have hlen := ownershipStep_length ch s b
        rcases ihl (ownershipStep ch s b) (by rw [hlen]; exact hs)
          (hQstep ch s b hs hQ) with ⟨h1, h2⟩
        exact ⟨h1, by rw [h2, hlen]⟩
  have hgetD : ∀ s : Nat,
      (buildAnchorsBySystem (d :: anchors) systems).getD s [] =
        (buildAnchorsBySystem anchors systems).getD s [] ∨
      (buildAnchorsBySystem (d :: anchors) systems).getD s [] =
        d :: (buildAnchorsBySystem anchors systems).getD s [] := by
    intro s
    by_cases hs : s < systems.length
    · unfold buildAnchorsBySystem
      rw [getD_map_lt _ systems s hs [] ⟨0, 0⟩,
        getD_map_lt _ systems s hs [] ⟨0, 0⟩, List.filter_cons]
      split
      · right; rfl
      · left; rfl
    · left
      unfold buildAnchorsBySystem
      rw [List.getD_eq_default _ _ (by rw [List.length_map]; omega),
        List.getD_eq_default _ _ (by rw [List.length_map]; omega)]
  have hmain : ∀ (L : List Nat) (ch : List (List LyricToken)),
      (∀ s ∈ L, s < chunks.length) → ch.length = chunks.length →
      (∀ t ∈ ch.flatten, t.isWord = true → t.charIndex ≠ d.charIndex) →
      L.foldl (fun ch2 s => ((buildAnchorsBySystem (d :: anchors)
        systems).getD s []).foldl (fun ch3 x => ownershipStep ch3 s x) ch2)
        ch =
      L.foldl (fun ch2 s => ((buildAnchorsBySystem anchors systems).getD s
        []).foldl (fun ch3 x => ownershipStep ch3 s x) ch2) ch := by
    intro L
    induction L with
    | nil => intro ch _ _ _; rfl
    | cons s rest ihL =>
        intro ch hL hlen hQ
        simp only [List.foldl_cons]
        have hs : s < ch.length := by
          rw [hlen]; exact hL s (List.mem_cons_self s rest)
        have hfold1 : ((buildAnchorsBySystem (d :: anchors) systems).getD s
            []).foldl (fun ch3 x => ownershipStep ch3 s x) ch =
            ((buildAnchorsBySystem anchors systems).getD s []).foldl
              (fun ch3 x => ownershipStep ch3 s x) ch := by
          rcases hgetD s with heq | heq
          · rw [heq]
          · rw [heq, List.foldl_cons, ownershipStep_dead ch s d hQ]
        rw [hfold1]
        rcases hinner ch s ((buildAnchorsBySystem anchors systems).getD s [])
          hs hQ with ⟨hQ', hlen'⟩
        exact ihL _ (fun s' hs' => hL s' (List.mem_cons_of_mem s hs'))
          (by rw [hlen', hlen]) hQ'
  unfold enforceAnchoredTokenOwnership
  exact hmain (List.range chunks.length) chunks
    (fun s hs => List.mem_range.mp hs) rfl h

/-! ## Tokenizer contract lemmas -/

/-- The tokenizer's per-token contract, stated relative to a base character
list `base` whose head character sits at absolute index `offset`: the token's
index lies inside the base; a word's text is nonempty, free of whitespace and
dashes, and reads back verbatim from the base at its index; a hyphen's index
points at a `'-'` character of the base. -/
def TokSpec (base : List Char) (offset : Nat) : LyricToken → Prop
  | .word text ci =>
      offset ≤ ci ∧ ci < offset + base.length ∧ text.data ≠ [] ∧
      (∀ ch ∈ text.data, isJsSpace ch = false ∧ ch ≠ '-') ∧
      (base.drop (ci - offset)).take text.data.length = text.data
  | .hyphen ci =>
      offset ≤ ci ∧ ci < offset + base.length ∧ base.getD (ci - offset) ' ' = '-'

theorem tokSpec_bounds (base : List Char) (offset : Nat) (t : LyricToken)
    (h : TokSpec base offset t) :
    offset ≤ t.charIndex ∧ t.charIndex < offset + base.length := by
  cases t with
  | word text ci => exact ⟨h.1, h.2.1⟩
  | hyphen ci => exact ⟨h.1, h.2.1⟩

theorem tokSpec_cons (c : Char) (base : List Char) (offset : Nat)
    (t : LyricToken) (h : TokSpec base (offset + 1) t) :
    TokSpec (c :: base) offset t := by
  cases t with
  | word text ci =>
      obtain ⟨h1, h2, h3, h4, h5⟩ := h
      refine ⟨by omega, by simp only [List.length_cons]; omega, h3, h4, ?_⟩
      have harith : ci - offset = (ci - (offset + 1)) + 1 := by omega
      rw [harith, List.drop_succ_cons]
      exact h5
  | hyphen ci =>
      obtain ⟨h1, h2, h3⟩ := h
      refine ⟨by omega, by simp only [List.length_cons]; omega, ?_⟩
      have harith : ci - offset = (ci - (offset + 1)) + 1 := by omega
      rw [harith, List.getD_cons_succ]
      exact h3

theorem tokSpec_append_left (pre post : List Char) (offset : Nat)
    (t : LyricToken) (h : TokSpec pre offset t) :
    TokSpec (pre ++ post) offset t := by
  cases t with
  | word text ci =>
      obtain ⟨h1, h2, h3, h4, h5⟩ := h
      refine ⟨h1, by simp only [List.length_append]; omega, h3, h4, ?_⟩
      rw [List.drop_append_of_le_length (by omega)]
      have hlen : text.data.length ≤ (pre.drop (ci - offset)).length := by
        have := congrArg List.length h5
        rw [List.length_take] at this
        omega
      rw [List.take_append_of_le_length hlen]
      exact h5
  | hyphen ci =>
      obtain ⟨h1, h2, h3⟩ := h
      refine ⟨h1, by simp only [List.length_append]; omega, ?_⟩
      rw [List.getD_append _ _ _ _ (by omega)]
      exact h3

theorem tokSpec_append_right (pre post : List Char) (offset : Nat)
    (t : LyricToken) (h : TokSpec post (offset + pre.length) t) :
    TokSpec (pre ++ post) offset t := by
  have hdrop : ∀ n : Nat, pre.length ≤ n →
      (pre ++ post).drop n = post.drop (n - pre.length) := by
    intro n hn
    rw [List.drop_append_eq_append_drop, List.drop_of_length_le hn]
    simp
  cases t with
  | word text ci =>
      obtain ⟨h1, h2, h3, h4, h5⟩ := h
      refine ⟨by omega, by simp only [List.length_append]; omega, h3, h4, ?_⟩
      rw [hdrop (ci - offset) (by omega)]
      have harith : ci - offset - pre.length = ci - (offset + pre.length) := by
        omega
      rw [harith]
      exact h5
  | hyphen ci =>
      obtain ⟨h1, h2, h3⟩ := h
      refine ⟨by omega, by simp only [List.length_append]; omega, ?_⟩
      rw [List.getD_append_right _ _ _ _ (by omega)]
      have harith : ci - offset - pre.length = ci - (offset + pre.length) := by
        omega
      rw [harith]
      exact h3

theorem dashSplitGo_nil (idx : Nat) (acc : List Char) (segStart : Nat) :
    dashSplitGo [] idx acc segStart =
      if acc.isEmpty then [] else [.word (String.mk acc.reverse) segStart] :=
  rfl

theorem dashSplitGo_cons (c : Char) (rest : List Char) (idx : Nat)
    (acc : List Char) (segStart : Nat) :
    dashSplitGo (c :: rest) idx acc segStart =
      if c = '-' then
        (if acc.isEmpty then [] else [.word (String.mk acc.reverse) segStart])
          ++ .hyphen idx :: dashSplitGo rest (idx + 1) [] (idx + 1)
      else dashSplitGo rest (idx + 1) (c :: acc) segStart :=
  rfl

theorem isEmpty_false_of_ne {α : Type} (l : List α) (h : l ≠ []) :
    l.isEmpty = false := by
  cases l with
  | nil => exact absurd rfl h
  | cons a t => rfl

theorem dashSplitGo_spec (cs : List Char) : ∀ (idx : Nat) (acc : List Char)
    (segStart : Nat), idx = segStart + acc.length →
    (∀ ch ∈ acc, isJsSpace ch = false ∧ ch ≠ '-') →
    (∀ ch ∈ cs, isJsSpace ch = false) →
    List.Chain' (fun u v => u.charIndex < v.charIndex)
      (dashSplitGo cs idx acc segStart) ∧
    ∀ t ∈ dashSplitGo cs idx acc segStart,
      TokSpec (acc.reverse ++ cs) segStart t := by
  induction cs with
  | nil =>
      intro idx acc segStart hidx hacc _
      by_cases hne : acc = []
      · subst hne
        simp [dashSplitGo_nil]
      · rw [dashSplitGo_nil, if_neg (by simp [isEmpty_false_of_ne acc hne])]
        refine ⟨List.chain'_singleton _, ?_⟩
        intro t ht
        rw [List.mem_singleton] at ht
        subst ht
        refine ⟨le_refl _, ?_, ?_, ?_, ?_⟩
        · simp only [List.append_nil, List.length_reverse]
          have : 0 < acc.length := List.length_pos.mpr hne
          omega
        · simpa using hne
        · intro ch hch
          exact hacc ch (by simpa using hch)
        · show ((acc.reverse ++ []).drop (segStart - segStart)).take
            acc.reverse.length = acc.reverse
          simp
  | cons c rest ih =>
      intro idx acc segStart hidx hacc hcs
      by_cases hc : c = '-'
      · subst hc
        rw [dashSplitGo_cons, if_pos rfl]
        obtain ⟨hRchain, hRmem⟩ :=
          ih (idx + 1) [] (idx + 1) (by simp) (by simp)
            (fun ch hch => hcs ch (List.mem_cons_of_mem _ hch))
        simp only [List.reverse_nil, List.nil_append] at hRmem
        have hRlow : ∀ t ∈ dashSplitGo rest (idx + 1) [] (idx + 1),
            idx + 1 ≤ t.charIndex := fun t ht =>
          (tokSpec_bounds rest (idx + 1) t (hRmem t ht)).1
        have hhyp : TokSpec (acc.reverse ++ '-' :: rest) segStart
            (.hyphen idx) := by
          refine ⟨by omega, ?_, ?_⟩
          · simp only [List.length_append, List.length_reverse,
              List.length_cons]
            omega
          · have harith : idx - segStart = acc.reverse.length := by
              simp only [List.length_reverse]; omega
            rw [harith, List.getD_append_right _ _ _ _ (le_refl _)]
            simp
        have hRmem' : ∀ t ∈ dashSplitGo rest (idx + 1) [] (idx + 1),
            TokSpec (acc.reverse ++ '-' :: rest) segStart t := by
          intro t ht
          have h1 : TokSpec ('-' :: rest) idx t := tokSpec_cons _ _ _ _
            (hRmem t ht)
          have h2 : TokSpec (acc.reverse ++ '-' :: rest) segStart t := by
            apply tokSpec_append_right
            have harith : segStart + acc.reverse.length = idx := by
              simp only [List.length_reverse]; omega
            rw [harith]
            exact h1
          exact h2
        by_cases hae : acc = []
        · subst hae
          rw [if_pos (show ([] : List Char).isEmpty = true from rfl),
            List.nil_append]
          constructor
          · rw [List.chain'_cons']
            refine ⟨?_, hRchain⟩
            intro y hy
            have h9 := hRlow y (List.mem_of_mem_head? hy)
            show (LyricToken.hyphen idx).charIndex < y.charIndex
            simp only [LyricToken.charIndex] at h9 ⊢
            omega
          · intro t ht
            rw [List.mem_cons] at ht
            rcases ht with ht | ht
            · subst ht; simpa using hhyp
            · simpa using hRmem' t ht
        · have hne : acc ≠ [] := hae
          rw [if_neg (by simp [isEmpty_false_of_ne acc hne]),
            List.singleton_append]
          have hword : TokSpec (acc.reverse ++ '-' :: rest) segStart
              (.word (String.mk acc.reverse) segStart) := by
            refine ⟨le_refl _, ?_, ?_, ?_, ?_⟩
            · simp only [List.length_append, List.length_reverse,
                List.length_cons]
              have : 0 < acc.length := List.length_pos.mpr hne
              omega
            · simpa using hne
            · intro ch hch
              exact hacc ch (by simpa using hch)
            · show (((acc.reverse ++ '-' :: rest)).drop
                (segStart - segStart)).take acc.reverse.length = acc.reverse
              simp only [Nat.sub_self, List.drop_zero]
              exact List.take_left _ _
          constructor
          · rw [List.chain'_cons']
            constructor
            · intro y hy
              simp only [List.head?_cons, Option.mem_def,
                Option.some.injEq] at hy
              subst hy
              simp only [LyricToken.charIndex]
              have : 0 < acc.length := List.length_pos.mpr hne
              omega
            · rw [List.chain'_cons']
              refine ⟨?_, hRchain⟩
              intro y hy
              have h9 := hRlow y (List.mem_of_mem_head? hy)
              show (LyricToken.hyphen idx).charIndex < y.charIndex
              simp only [LyricToken.charIndex] at h9 ⊢
              omega
          · intro t ht
            rw [List.mem_cons] at ht
            rcases ht with ht | ht
            · subst ht; exact hword
            · rw [List.mem_cons] at ht
              rcases ht with ht | ht
              · subst ht; exact hhyp
              · exact hRmem' t ht
      · rw [dashSplitGo_cons, if_neg hc]
        obtain ⟨hchain, hmem⟩ := ih (idx + 1) (c :: acc) segStart
          (by simp only [List.length_cons]; omega)
          (by
            intro ch hch
            rw [List.mem_cons] at hch
            rcases hch with hch | hch
            · subst hch
              exact ⟨hcs ch (List.mem_cons_self _ _), hc⟩
            · exact hacc ch hch)
          (fun ch hch => hcs ch (List.mem_cons_of_mem _ hch))
        refine ⟨hchain, ?_⟩
        intro t ht
        have := hmem t ht
        rwa [List.reverse_cons, List.append_assoc, List.singleton_append]
          at this

theorem emitWord_spec (ws : List Char) (absStart : Nat) (hne : ws ≠ [])
    (hws : ∀ ch ∈ ws, isJsSpace ch = false) :
    List.Chain' (fun u v => u.charIndex < v.charIndex) (emitWord ws absStart) ∧
    ∀ t ∈ emitWord ws absStart, TokSpec ws absStart t := by
  unfold emitWord
  by_cases hd : ws.contains '-'
  · rw [if_pos hd]
    obtain ⟨h1, h2⟩ := dashSplitGo_spec ws absStart [] absStart (by simp)
      (by simp) hws
    exact ⟨h1, by simpa using h2⟩
  · rw [if_neg hd]
    have hnd : ∀ ch ∈ ws, ch ≠ '-' := by
      intro ch hch heq
      subst heq
      have : ('-' : Char) ∉ ws := by simpa using hd
      exact this hch
    refine ⟨List.chain'_singleton _, ?_⟩
    intro t ht
    rw [List.mem_singleton] at ht
    subst ht
    refine ⟨le_refl _, ?_, ?_, ?_, ?_⟩
    · have : 0 < ws.length := List.length_pos.mpr hne
      omega
    · simpa using hne
    · intro ch hch
      exact ⟨hws ch (by simpa using hch), hnd ch (by simpa using hch)⟩
    · show ((ws.drop (absStart - absStart)).take (String.mk ws).data.length) =
        (String.mk ws).data
      simp

theorem tokenizeGo_nil (idx : Nat) : tokenizeGo [] idx = [] := by
  rw [tokenizeGo]

theorem tokenizeGo_cons (c : Char) (rest : List Char) (idx : Nat) :
    tokenizeGo (c :: rest) idx =
      if isJsSpace c then tokenizeGo rest (idx + 1)
      else
        emitWord ((c :: rest).takeWhile (fun ch => !isJsSpace ch)) idx ++
          tokenizeGo ((c :: rest).dropWhile (fun ch => !isJsSpace ch))
            (idx + ((c :: rest).takeWhile (fun ch => !isJsSpace ch)).length) := by
  rw [tokenizeGo]
  by_cases h : isJsSpace c <;> simp [h]

theorem tokenizeGo_spec (n : Nat) : ∀ (cs : List Char), cs.length ≤ n →
    ∀ idx : Nat,
    List.Chain' (fun u v => u.charIndex < v.charIndex) (tokenizeGo cs idx) ∧
    ∀ t ∈ tokenizeGo cs idx, TokSpec cs idx t := by
  induction n with
  | zero =>
      intro cs hlen idx
      have hcs : cs = [] := List.length_eq_zero.mp (Nat.le_zero.mp hlen)
      subst hcs
      simp [tokenizeGo_nil]
  | succ n ihn =>
      intro cs hlen idx
      cases cs with
      | nil => simp [tokenizeGo_nil]
      | cons c rest =>
          rw [tokenizeGo_cons]
          by_cases hsp : isJsSpace c
          · rw [if_pos hsp]
            obtain ⟨h1, h2⟩ := ihn rest (by simpa using hlen) (idx + 1)
            exact ⟨h1, fun t ht => tokSpec_cons c rest idx t (h2 t ht)⟩
          · rw [if_neg hsp]
            have hpc : (fun ch => !isJsSpace ch) c = true := by
              simp [hsp]
            have hws_eq : (c :: rest).takeWhile (fun ch => !isJsSpace ch) =
                c :: rest.takeWhile (fun ch => !isJsSpace ch) := by
              rw [List.takeWhile_cons, if_pos hpc]
            have hws_ne : (c :: rest).takeWhile (fun ch => !isJsSpace ch) ≠ [] := by
              rw [hws_eq]; exact List.cons_ne_nil _ _
            have hws_chars : ∀ ch ∈ (c :: rest).takeWhile
                (fun ch => !isJsSpace ch), isJsSpace ch = false := by
              intro ch hch
              have := List.mem_takeWhile_imp hch
              simpa using this
            have hafter_eq : (c :: rest).dropWhile (fun ch => !isJsSpace ch) =
                rest.dropWhile (fun ch => !isJsSpace ch) := by
              rw [List.dropWhile_cons, if_pos hpc]
            have hafter_len : ((c :: rest).dropWhile
                (fun ch => !isJsSpace ch)).length ≤ n := by
              rw [hafter_eq]
              have := length_dropWhile_le (fun ch => !isJsSpace ch) rest
              simp only [List.length_cons] at hlen
              omega
            have hsplit : (c :: rest).takeWhile (fun ch => !isJsSpace ch) ++
                (c :: rest).dropWhile (fun ch => !isJsSpace ch) = c :: rest :=
              List.takeWhile_append_dropWhile _ _
            obtain ⟨hE1, hE2⟩ := emitWord_spec _ idx hws_ne hws_chars
            obtain ⟨hR1, hR2⟩ := ihn _ hafter_len
              (idx + ((c :: rest).takeWhile (fun ch => !isJsSpace ch)).length)
            constructor
            · refine List.Chain'.append hE1 hR1 ?_
              intro x hx y hy
              have hxb := (tokSpec_bounds _ _ x
                (hE2 x (List.mem_of_mem_getLast? hx))).2
              have hyb := (tokSpec_bounds _ _ y
                (hR2 y (List.mem_of_mem_head? hy))).1
              omega
            · intro t ht
              rw [← hsplit]
              rcases List.mem_append.mp ht with hm | hm
              · exact tokSpec_append_left _ _ idx t (hE2 t hm)
              · exact tokSpec_append_right _ _ idx t (hR2 t hm)

theorem tokenizeGo_all_space (n : Nat) : ∀ (cs : List Char), cs.length ≤ n →
    (∀ c ∈ cs, isJsSpace c = true) → ∀ idx : Nat, tokenizeGo cs idx = [] := by
  induction n with
  | zero =>
      intro cs hlen _ idx
      have hcs : cs = [] := List.length_eq_zero.mp (Nat.le_zero.mp hlen)
      subst hcs
      exact tokenizeGo_nil idx
  | succ n ihn =>
      intro cs hlen hall idx
      cases cs with
      | nil => exact tokenizeGo_nil idx
      | cons c rest =>
          rw [tokenizeGo_cons, if_pos (hall c (List.mem_cons_self _ _))]
          exact ihn rest (by simpa using hlen)
            (fun x hx => hall x (List.mem_cons_of_mem _ hx)) (idx + 1)

/-! ## The claims

One theorem per claim, with concrete witnesses and the counterexamples
that refute the literal readings where the code disagrees. -/

/-- Evaluation of the tokenizer on the two-word input `"a b"`. -/
theorem tokenize_ab_eval :
    tokenizeAllLyrics "a b" = [.word "a" 0, .word "b" 2] := by
  have hd : "a b".data = ['a', ' ', 'b'] := rfl
  simp +decide [tokenizeAllLyrics, hd, tokenizeGo_cons, tokenizeGo_nil,
    emitWord, dashSplitGo, isJsSpace]

/-- Claim C1 (amended): the per-system chunks produced by
`chunkTokensForwardOnly` followed by `reflowOverflowAcrossSystems`,
concatenated in system order, form a permutation of a prefix of the original
token sequence — no token is duplicated or invented, but the chunker can
drop a suffix of the tokens (when the systems run out) and the reflow passes
can reorder tokens across system boundaries. -/
theorem c1_partition_amended (tokens : List LyricToken)
    (anchors : List LyricAnchor) (systems : List SysWin)
    (subdivision W : ℚ) :
    ∃ n, ((reflowOverflowAcrossSystems
        (chunkTokensForwardOnly tokens anchors systems W)
        (buildAnchorsBySystem anchors systems) systems subdivision
        W).flatten).Perm (tokens.take n) := by
  rcases chunkTokensForwardOnly_join tokens anchors systems W with ⟨n, hn⟩
  exact ⟨n, (reflow_flatten_perm _ _ _ _ _).trans (hn ▸ List.Perm.refl _)⟩

/-- Claim C1, counterexample to the literal partition law: on the two-token
input `"a b"` with a single narrow system, the concatenated chunks lose the
second token. -/
theorem c1_partition_counterexample :
    (reflowOverflowAcrossSystems
      (chunkTokensForwardOnly (tokenizeAllLyrics "a b") [] [⟨0, 4⟩] 10)
      (buildAnchorsBySystem [] [⟨0, 4⟩]) [⟨0, 4⟩] 1 10).flatten ≠
    tokenizeAllLyrics "a b" := by
  rw [tokenize_ab_eval]
  have hla : "a".length = 1 := rfl
  have hlb : "b".length = 1 := rfl
  have hchunk : chunkTokensForwardOnly [.word "a" 0, .word "b" 2]
      ([] : List LyricAnchor) [⟨0, 4⟩] 10 = [[.word "a" 0]] := by
    norm_num [chunkTokensForwardOnly, requiredMaxForWin, chunkRangesGo,
      chunkEnd, widthFillGo, estWidthOfToken, charPx, padPx, gapPx, hyphenPx,
      hla, hlb]
  have habsys : buildAnchorsBySystem [] [⟨0, 4⟩] = [[]] := by
    norm_num [buildAnchorsBySystem]
  have henf : enforceAnchoredTokenOwnership [[.word "a" 0]] [[]] =
      [[.word "a" 0]] := by
    norm_num [enforceAnchoredTokenOwnership, List.range]
  rw [hchunk, habsys]
  unfold reflowOverflowAcrossSystems
  dsimp only
  rw [henf]
  rw [show ([[LyricToken.word "a" 0]] : List (List LyricToken)).length = 1
    from rfl]
  rw [overflowLoop]
  norm_num

/-- Claim C2 (amended, single-anchor case): with exactly one anchor, whose
`cell` lies in exactly one system window and whose `charIndex` matches
exactly one word token, the matching token ends up in that system's final
chunk and in no other.  (With several anchors the law fails; see the
counterexample.) -/
theorem c2_ownership_amended (tokens : List LyricToken) (a : LyricAnchor)
    (systems : List SysWin) (subdivision W : ℚ) (sStar : Nat)
    (hsys : sStar < systems.length)
    (hin : (systems.getD sStar ⟨0, 0⟩).startCell ≤ a.cell ∧
      a.cell < (systems.getD sStar ⟨0, 0⟩).endCell)
    (huniq : ∀ s', s' < systems.length → s' ≠ sStar →
      ¬ ((systems.getD s' ⟨0, 0⟩).startCell ≤ a.cell ∧
        a.cell < (systems.getD s' ⟨0, 0⟩).endCell))
    (hcount : tokens.countP (matchesCI a.charIndex) = 1) :
    ((reflowOverflowAcrossSystems
      (chunkTokensForwardOnly tokens [a] systems W)
      (buildAnchorsBySystem [a] systems) systems subdivision W).getD sStar
      []).countP (matchesCI a.charIndex) = 1 ∧
    ∀ s', s' ≠ sStar →
      ((reflowOverflowAcrossSystems (chunkTokensForwardOnly tokens [a]
        systems W) (buildAnchorsBySystem [a] systems) systems subdivision
        W).getD s' []).countP (matchesCI a.charIndex) = 0 :=
  ownership_single_core tokens a systems subdivision W sStar hsys hin huniq
    hcount

/-- Witness for C2: one token, one anchor, one system. -/
theorem c2_ownership_witness :
    ((reflowOverflowAcrossSystems
      (chunkTokensForwardOnly [LyricToken.word "a" 0] [⟨"x", 0, 2⟩]
        [⟨0, 4⟩] 1000)
      (buildAnchorsBySystem [⟨"x", 0, 2⟩] [⟨0, 4⟩]) [⟨0, 4⟩] 1 1000).getD 0
      []).countP (matchesCI 0) = 1 ∧
    ∀ s', s' ≠ 0 →
      ((reflowOverflowAcrossSystems
        (chunkTokensForwardOnly [LyricToken.word "a" 0] [⟨"x", 0, 2⟩]
          [⟨0, 4⟩] 1000)
        (buildAnchorsBySystem [⟨"x", 0, 2⟩] [⟨0, 4⟩]) [⟨0, 4⟩] 1 1000).getD
        s' []).countP (matchesCI 0) = 0 :=
  c2_ownership_amended [LyricToken.word "a" 0] ⟨"x", 0, 2⟩ [⟨0, 4⟩] 1 1000 0
    (by norm_num) ⟨by norm_num, by norm_num⟩
    (by intro s' h1 h2; simp at h1; omega) (by decide)

/-- Claim C2, counterexample to the general ownership law: with two anchors
whose cells are in opposite order to their tokens, the token anchored into
system 0 (`"b"`, anchor cell 0 ∈ [0,4)) is ejected from system 0's final
chunk by the ownership pass for the other anchor. -/
theorem c2_ownership_counterexample :
    LyricToken.word "b" 2 ∉
      ((reflowOverflowAcrossSystems
        (chunkTokensForwardOnly (tokenizeAllLyrics "a b")
          [⟨"beta", 0, 4⟩, ⟨"alpha", 2, 0⟩] [⟨0, 4⟩, ⟨4, 8⟩] 1000)
        (buildAnchorsBySystem [⟨"beta", 0, 4⟩, ⟨"alpha", 2, 0⟩]
          [⟨0, 4⟩, ⟨4, 8⟩]) [⟨0, 4⟩, ⟨4, 8⟩] 1 1000).getD 0 []) := by
  rw [tokenize_ab_eval]
  have hla : "a".length = 1 := rfl
  have hlb : "b".length = 1 := rfl
  have henum : ([LyricToken.word "a" 0, .word "b" 2] :
      List LyricToken).enumFrom 0 =
      [(0, .word "a" 0), (1, .word "b" 2)] := rfl
  have hchunk : chunkTokensForwardOnly [.word "a" 0, .word "b" 2]
      [⟨"beta", 0, 4⟩, ⟨"alpha", 2, 0⟩] [⟨0, 4⟩, ⟨4, 8⟩] 1000 =
      [[.word "a" 0, .word "b" 2], []] := by
    norm_num [chunkTokensForwardOnly, requiredMaxForWin, chunkRangesGo,
      chunkEnd, widthFillGo, estWidthOfToken, charPx, padPx, gapPx, hyphenPx,
      lastWordIdx, henum, hla, hlb]
  have habsys : buildAnchorsBySystem [⟨"beta", 0, 4⟩, ⟨"alpha", 2, 0⟩]
      [⟨0, 4⟩, ⟨4, 8⟩] = [[⟨"alpha", 2, 0⟩], [⟨"beta", 0, 4⟩]] := by
    norm_num [buildAnchorsBySystem]
  have henf : enforceAnchoredTokenOwnership
      [[LyricToken.word "a" 0, .word "b" 2], []]
      [[⟨"alpha", 2, 0⟩], [⟨"beta", 0, 4⟩]] =
      [[], [.word "a" 0, .word "b" 2]] := by
    decide
  rw [hchunk, habsys]
  unfold reflowOverflowAcrossSystems
  dsimp only
  rw [henf]
  rw [show ([[], [LyricToken.word "a" 0, .word "b" 2]] :
    List (List LyricToken)).length = 2 from rfl]
  rw [overflowLoop]
  rw [if_neg (by norm_num)]
  have hstep : overflowStepAt [[⟨"alpha", 2, 0⟩], [⟨"beta", 0, 4⟩]]
      [⟨0, 4⟩, ⟨4, 8⟩] 1 1000 0
      [[], [LyricToken.word "a" 0, .word "b" 2]] =
      [[], [LyricToken.word "a" 0, .word "b" 2]] := rfl
  rw [hstep]
  rw [overflowLoop]
  rw [if_pos (by norm_num)]
  simp

/-- Claim C3 (amended): under the pixel solver, an anchored token's final
position is at least its resolved clamped anchor position (the forward
non-overlap sweep can push it further right), with equality guaranteed when
the anchored token is the first token of the system. -/
theorem c3_anchor_fixedness_amended (tokens : List LyricToken)
    (anchors : List LyricAnchor) (ssc sb subdiv w : ℚ) (i : Nat) (ax : ℚ)
    (hnodup : ((anchorPoints tokens anchors ssc sb subdiv w).map
      Prod.fst).Nodup)
    (hmem : (i, ax) ∈ anchorPoints tokens anchors ssc sb subdiv w) :
    ax ≤ ((layoutOnlyBetweenAnchors tokens anchors ssc sb subdiv w).getD i
      dLaid).2 ∧
    (i = 0 → ((layoutOnlyBetweenAnchors tokens anchors ssc sb subdiv
      w).getD i dLaid).2 = ax) :=
  layout_anchored_core tokens anchors ssc sb subdiv w i ax hnodup hmem

/-- Witness for C3: a single anchored token sits exactly at its resolved
position. -/
theorem c3_anchor_fixedness_witness :
    (50 : ℚ) ≤ ((layoutOnlyBetweenAnchors [.word "a" 0] [⟨"a1", 0, 2⟩] 0 4 1
      100).getD 0 dLaid).2 ∧
    ((0 : Nat) = 0 → ((layoutOnlyBetweenAnchors [.word "a" 0]
      [⟨"a1", 0, 2⟩] 0 4 1 100).getD 0 dLaid).2 = 50) := by
  have hpts : anchorPoints [.word "a" 0] [⟨"a1", 0, 2⟩] 0 4 1 100 =
      [(0, 50)] := by
    norm_num [anchorPoints, anchorPointOfAnchor, findWordIdx, sortPts,
      insertPt, anchorPointLE, qclamp, List.findIdx?_cons, List.findIdx?_nil,
      List.findIdx?_succ, LyricToken.isWord, LyricToken.charIndex]
  exact c3_anchor_fixedness_amended [.word "a" 0] [⟨"a1", 0, 2⟩] 0 4 1 100 0
    50 (by rw [hpts]; simp) (by rw [hpts]; simp)

/-- Claim C3, counterexample to literal anchor fixedness: a long unanchored
token before the anchored one makes the non-overlap sweep push the anchored
token from its resolved position 10 to 66. -/
theorem c3_anchor_fixedness_counterexample :
    ((layoutOnlyBetweenAnchors [.word "aaaa" 0, .word "b" 5]
      [⟨"a1", 5, 1⟩] 0 10 1 100).getD 1 dLaid).2 ≠
      qclamp ((1 - 0) / 1) 0 10 / 10 * 100 := by
  have hla : "aaaa".length = 4 := rfl
  have hlb : "b".length = 1 := rfl
  norm_num [layoutOnlyBetweenAnchors, anchorPoints, anchorPointOfAnchor,
    findWordIdx, sortPts, insertPt, anchorPointLE, qclamp, linearFlow,
    snapAnchors, setX, spreadBetweenAnchors, spreadSegment, sweep, sweepGo,
    hyphenCenter, hyphenCenterGo, estWidthOfToken, charPx, padPx, gapPx,
    hyphenPx, dLaid, List.findIdx?_cons, List.findIdx?_nil,
    List.findIdx?_succ, LyricToken.isWord, LyricToken.charIndex,
    LyricToken.isHyphen, hla, hlb]

/-- Claim C4: the pixel solver's output never overlaps — for every pair of
consecutive laid-out tokens, the first one's right edge plus the fixed gap
is at most the second one's position (the code achieves this everywhere, by
moving anchored tokens too when needed). -/
theorem c4_non_overlap (tokens : List LyricToken)
    (anchors : List LyricAnchor) (ssc sb subdiv w : ℚ) :
    List.Chain' NoOverlap
      (layoutOnlyBetweenAnchors tokens anchors ssc sb subdiv w) :=
  layout_noOverlap tokens anchors ssc sb subdiv w

/-- Claim C5: resolved anchor positions are clamped into the system — with
positive beats and nonnegative width every pixel-space anchor point lies in
`[0, systemWidthPx]`, and with nonnegative system cells every cell-space
anchor point lies in `[0, systemCells]`; cells outside the window are never
extrapolated beyond an edge. -/
theorem c5_anchor_clamping (tokens : List LyricToken)
    (anchors : List LyricAnchor) (ssc sb subdiv w sc : ℚ)
    (hsb : 0 < sb) (hw : 0 ≤ w) (hsc : 0 ≤ sc) :
    (∀ p ∈ anchorPoints tokens anchors ssc sb subdiv w,
      0 ≤ p.2 ∧ p.2 ≤ w) ∧
    (∀ p ∈ anchorPointsCells tokens anchors ssc sc,
      0 ≤ p.2 ∧ p.2 ≤ sc) :=
  ⟨fun p hp => anchorPoints_bounds tokens anchors ssc sb subdiv w hsb hw p
      hp,
    fun p hp => anchorPointsCells_bounds tokens anchors ssc sc hsc p hp⟩

/-- Witness for C5: an anchor cell far outside the window. -/
theorem c5_anchor_clamping_witness :
    (∀ p ∈ anchorPoints [LyricToken.word "a" 0] [⟨"a1", 0, 99⟩] 0 4 1 100,
      0 ≤ p.2 ∧ p.2 ≤ 100) ∧
    (∀ p ∈ anchorPointsCells [LyricToken.word "a" 0] [⟨"a1", 0, 99⟩] 0 8,
      0 ≤ p.2 ∧ p.2 ≤ 8) :=
  c5_anchor_clamping [LyricToken.word "a" 0] [⟨"a1", 0, 99⟩] 0 4 1 100 8
    (by norm_num) (by norm_num) (by norm_num)

/-- Claim C6 (code bug): with `systemBeats = 0` the anchor-position formula
of `layoutOnlyBetweenAnchors` divides the clamped beat by `systemBeats`
without any guard, so under IEEE-754 semantics a matched anchor's position
is `(0/0) * W = NaN` rather than the position `0` the spec requires. -/
theorem c6_degenerate_division_nan :
    anchorXJs (.num 0) (.num 0) (.num 1) (.num 0) (.num 100) = .nan := by
  norm_num [anchorXJs, JsNum.sub, JsNum.div, JsNum.mul, jsClamp, JsNum.jmin,
    JsNum.jmax]

/-- Claim C8: the whole pipeline (tokenize → chunk → reflow → per-system
layout) is a pure function of its inputs — two runs on equal inputs give
equal per-token position output. -/
theorem c8_pipeline_deterministic (l1 l2 : String)
    (a1 a2 : List LyricAnchor) (s1 s2 : List SysWin) (d1 d2 W1 W2 : ℚ)
    (h : l1 = l2 ∧ a1 = a2 ∧ s1 = s2 ∧ d1 = d2 ∧ W1 = W2) :
    fullPipeline l1 a1 s1 d1 W1 = fullPipeline l2 a2 s2 d2 W2 := by
  obtain ⟨h1, h2, h3, h4, h5⟩ := h
  rw [h1, h2, h3, h4, h5]

/-- Witness for C8. -/
theorem c8_pipeline_deterministic_witness :
    fullPipeline "a" [] [⟨0, 4⟩] 1 100 = fullPipeline "a" [] [⟨0, 4⟩] 1
      100 :=
  c8_pipeline_deterministic "a" "a" [] [] [⟨0, 4⟩] [⟨0, 4⟩] 1 1 100 100
    ⟨rfl, rfl, rfl, rfl, rfl⟩

/-- Claim C9: both position solvers return exactly one output entry per
input token, in order, carrying the identical token value. -/
theorem c9_layout_preserves_tokens (tokens : List LyricToken)
    (anchors : List LyricAnchor) (ssc sb subdiv w sc px : ℚ) :
    (layoutOnlyBetweenAnchors tokens anchors ssc sb subdiv w).map Prod.fst =
      tokens ∧
    (layoutOnlyBetweenAnchorsInCells tokens anchors ssc sc px).map
      Prod.fst = tokens :=
  ⟨layout_map_fst tokens anchors ssc sb subdiv w,
    layoutCells_map_fst tokens anchors ssc sc px⟩

/-- Claim C10: an anchor whose `charIndex` matches no word token (for
example one pointing at a hyphen token) is ignored by the chunker, by both
layout variants and by the ownership-enforcement pass — removing it changes
nothing. -/
theorem c10_word_only_anchors (tokens : List LyricToken) (d : LyricAnchor)
    (anchors : List LyricAnchor) (systems : List SysWin)
    (W ssc sb subdiv w sc px : ℚ) (chunks : List (List LyricToken))
    (hdead : DeadFor tokens d)
    (hchunks : ∀ t ∈ chunks.flatten, t ∈ tokens) :
    chunkTokensForwardOnly tokens (d :: anchors) systems W =
      chunkTokensForwardOnly tokens anchors systems W ∧
    layoutOnlyBetweenAnchors tokens (d :: anchors) ssc sb subdiv w =
      layoutOnlyBetweenAnchors tokens anchors ssc sb subdiv w ∧
    layoutOnlyBetweenAnchorsInCells tokens (d :: anchors) ssc sc px =
      layoutOnlyBetweenAnchorsInCells tokens anchors ssc sc px ∧
    enforceAnchoredTokenOwnership chunks
        (buildAnchorsBySystem (d :: anchors) systems) =
      enforceAnchoredTokenOwnership chunks
        (buildAnchorsBySystem anchors systems) := by
  refine ⟨chunk_cons_dead tokens d anchors systems W hdead,
    layout_cons_dead tokens d anchors ssc sb subdiv w hdead,
    layoutCells_cons_dead tokens d anchors ssc sc px hdead,
    enforce_cons_dead chunks d anchors systems ?_⟩
  intro t ht hw
  exact hdead t (hchunks t ht) hw

/-- Witness for C10: an anchor pointing at the hyphen token of `"a-b"`. -/
theorem c10_word_only_anchors_witness :
    chunkTokensForwardOnly [LyricToken.word "a" 0, .hyphen 1, .word "b" 2]
        ((⟨"d", 1, 0⟩ : LyricAnchor) :: []) [⟨0, 4⟩] 100 =
      chunkTokensForwardOnly [LyricToken.word "a" 0, .hyphen 1, .word "b" 2]
        [] [⟨0, 4⟩] 100 ∧
    layoutOnlyBetweenAnchors [LyricToken.word "a" 0, .hyphen 1, .word "b" 2]
        ((⟨"d", 1, 0⟩ : LyricAnchor) :: []) 0 4 1 100 =
      layoutOnlyBetweenAnchors [LyricToken.word "a" 0, .hyphen 1,
        .word "b" 2] [] 0 4 1 100 ∧
    layoutOnlyBetweenAnchorsInCells [LyricToken.word "a" 0, .hyphen 1,
        .word "b" 2] ((⟨"d", 1, 0⟩ : LyricAnchor) :: []) 0 8 30 =
      layoutOnlyBetweenAnchorsInCells [LyricToken.word "a" 0, .hyphen 1,
        .word "b" 2] [] 0 8 30 ∧
    enforceAnchoredTokenOwnership [[LyricToken.word "a" 0]]
        (buildAnchorsBySystem ((⟨"d", 1, 0⟩ : LyricAnchor) :: []) [⟨0, 4⟩]) =
      enforceAnchoredTokenOwnership [[LyricToken.word "a" 0]]
        (buildAnchorsBySystem [] [⟨0, 4⟩]) :=
  c10_word_only_anchors [LyricToken.word "a" 0, .hyphen 1, .word "b" 2]
    ⟨"d", 1, 0⟩ [] [⟨0, 4⟩] 100 0 4 1 100 8 30 [[LyricToken.word "a" 0]]
    (by unfold DeadFor; decide) (by decide)

/-- Claim C7: the tokenizer contract — `tokenizeAllLyrics` returns tokens in
strictly increasing `charIndex` order; every word token's text is nonempty,
contains no whitespace and no dash, and equals the input substring starting
at its `charIndex`; every hyphen token's `charIndex` indexes a `'-'`
character of the input; whitespace-only input yields the empty sequence. -/
theorem c7_tokenizer_contract (lyrics : String) :
    List.Pairwise (fun u v => u.charIndex < v.charIndex)
      (tokenizeAllLyrics lyrics) ∧
    (∀ text ci, LyricToken.word text ci ∈ tokenizeAllLyrics lyrics →
      text ≠ "" ∧ (∀ ch ∈ text.data, isJsSpace ch = false ∧ ch ≠ '-') ∧
      (lyrics.data.drop ci).take text.data.length = text.data) ∧
    (∀ ci, LyricToken.hyphen ci ∈ tokenizeAllLyrics lyrics →
      ci < lyrics.data.length ∧ lyrics.data.getD ci ' ' = '-') ∧
    ((∀ c ∈ lyrics.data, isJsSpace c = true) →
      tokenizeAllLyrics lyrics = []) := by
  obtain ⟨hchain, hmem⟩ := tokenizeGo_spec lyrics.data.length lyrics.data
    (le_refl _) 0
  refine ⟨?_, ?_, ?_, ?_⟩
  · have htr : IsTrans LyricToken (fun u v => u.charIndex < v.charIndex) :=
      ⟨fun a b c hab hbc => Nat.lt_trans hab hbc⟩
    exact (@List.chain'_iff_pairwise _ _ htr _).mp hchain
  · intro text ci hmem'
    obtain ⟨h1, h2, h3, h4, h5⟩ := hmem _ hmem'
    refine ⟨?_, h4, ?_⟩
    · intro he
      subst he
      exact h3 rfl
    · simpa using h5
  · intro ci hmem'
    obtain ⟨h1, h2, h3⟩ := hmem _ hmem'
    exact ⟨by omega, by simpa using h3⟩
  · intro hall
    exact tokenizeGo_all_space lyrics.data.length lyrics.data (le_refl _)
      hall 0

end PNC
